import Mathlib

/-!
# Agent record store (chaincode `agent.go`)

A shallow embedding of the `SmartContract` operations of `agent.go`
(`InitLedger`, `Createagent`, `Readagent`, `Updateagent`, `Deleteagent`,
`agentExists`, `GetAllagents`) together with the parts of the Go runtime the
operations depend on:

* Go strings and byte slices are sequences of bytes (a Go `string` need not be
  valid UTF-8);
* `unicode/utf8` (`DecodeRune`, `EncodeRune`, `Valid`);
* `encoding/json` restricted to the `Agent` struct (`Marshal`, `Unmarshal`);
* the ledger stub (`GetState`, `PutState`, `DelState`, `GetStateByRange`) as an
  ordered key-value store with injectable failures and a trace of the calls.
-/

namespace AgentLedger

/-! ## Bytes and Go strings -/

/-- A Go `[]byte`. A byte is a natural number below 256; every byte the
operations below produce is below 256. -/
abbrev Bytes := List Nat

/-- A Go `string`: an immutable sequence of bytes, not necessarily UTF-8. -/
abbrev GoString := List Nat

/-- The rune `utf8.RuneError` (U+FFFD). -/
def RuneError : Nat := 0xFFFD

/-- The table `first` of `unicode/utf8`: information about the first byte of
a UTF-8 sequence (`as = 0xF0` ASCII, `xx = 0xF1` invalid, otherwise the low
three bits give the size and the high four bits the accept range). -/
def first (p0 : Nat) : Nat :=
  if p0 < 0x80 then 0xF0
  else if p0 < 0xC2 then 0xF1
  else if p0 < 0xE0 then 0x02
  else if p0 = 0xE0 then 0x13
  else if p0 < 0xED then 0x03
  else if p0 = 0xED then 0x23
  else if p0 < 0xF0 then 0x03
  else if p0 = 0xF0 then 0x34
  else if p0 < 0xF4 then 0x04
  else if p0 = 0xF4 then 0x44
  else 0xF1

/-- The table `acceptRanges` of `unicode/utf8`: allowed range of the second
byte. -/
def acceptRanges (i : Nat) : Nat × Nat :=
  if i = 1 then (0xA0, 0xBF)
  else if i = 2 then (0x80, 0x9F)
  else if i = 3 then (0x90, 0xBF)
  else if i = 4 then (0x80, 0x8F)
  else (0x80, 0xBF)

/-- Go `utf8.DecodeRune`: the first rune of `p` and its width in bytes;
`(RuneError, 1)` on an invalid or truncated encoding, `(RuneError, 0)` on
empty input. Masks and shifts are written with `%` and `*`. -/
def decodeRune (p : Bytes) : Nat × Nat :=
  match p with
  | [] => (RuneError, 0)
  | p0 :: t =>
    let x := first p0
    if x ≥ 0xF0 then
      (if x = 0xF0 then p0 else RuneError, 1)
    else
      let sz := x % 8
      let accept := acceptRanges (x / 16)
      if t.length + 1 < sz then (RuneError, 1)
      else
        match t with
        | [] => (RuneError, 1)
        | b1 :: t1 =>
          if b1 < accept.1 ∨ accept.2 < b1 then (RuneError, 1)
          else if sz ≤ 2 then ((p0 % 32) * 64 + b1 % 64, 2)
          else
            match t1 with
            | [] => (RuneError, 1)
            | b2 :: t2 =>
              if b2 < 0x80 ∨ 0xBF < b2 then (RuneError, 1)
              else if sz ≤ 3 then ((p0 % 16) * 4096 + (b1 % 64) * 64 + b2 % 64, 3)
              else
                match t2 with
                | [] => (RuneError, 1)
                | b3 :: _ =>
                  if b3 < 0x80 ∨ 0xBF < b3 then (RuneError, 1)
                  else ((p0 % 8) * 262144 + (b1 % 64) * 4096 + (b2 % 64) * 64 + b3 % 64, 4)

/-- Go `utf8.EncodeRune` (equivalently `utf8.AppendRune` on an empty slice):
the UTF-8 encoding of `r`; surrogates and values above U+10FFFF encode as
U+FFFD. -/
def encodeRune (r : Nat) : Bytes :=
  if r ≤ 0x7F then [r]
  else if r ≤ 0x7FF then [0xC0 + r / 64, 0x80 + r % 64]
  else if r > 0x10FFFF ∨ (0xD800 ≤ r ∧ r ≤ 0xDFFF) then [0xEF, 0xBF, 0xBD]
  else if r ≤ 0xFFFF then [0xE0 + r / 4096, 0x80 + (r / 64) % 64, 0x80 + r % 64]
  else [0xF0 + r / 262144, 0x80 + (r / 4096) % 64, 0x80 + (r / 64) % 64, 0x80 + r % 64]

/-- Go `utf8.Valid`: every position decodes to a rune (no `(RuneError, 1)`).
The first argument counts the bytes of the current rune still to be passed
over (the index arithmetic `i += size`). -/
def validLoop : Nat → Bytes → Bool
  | _, [] => true
  | skip + 1, _ :: rest => validLoop skip rest
  | 0, b :: rest =>
    if b < 0x80 then validLoop 0 rest
    else
      let d := decodeRune (b :: rest)
      if d.2 = 1 then false else validLoop (d.2 - 1) rest

/-- Go `utf8.ValidString`. -/
def validUTF8 (s : GoString) : Bool := validLoop 0 s

/-- The bytes of a Go string literal: the UTF-8 encoding of its characters. -/
def goStr (s : String) : GoString := s.toList.flatMap (fun c => encodeRune c.toNat)

/-! ## `encoding/json`: encoding of strings -/

/-- The table `hex` of `encoding/json` ("0123456789abcdef"). -/
def hexDigit (n : Nat) : Nat := if n < 10 then 0x30 + n else 0x61 + (n - 10)

/-- The table `htmlSafeSet` of `encoding/json`: the ASCII bytes written
without escaping when HTML escaping is on (the default of `json.Marshal`):
all of 0x20..0x7F except the double quote, `&`, `<`, `>` and the backslash. -/
def htmlSafeSet (b : Nat) : Bool :=
  0x20 ≤ b && b < 0x80 && b != 0x22 && b != 0x26 && b != 0x3C && b != 0x3E && b != 0x5C

/-- The escape written by `appendString` for an ASCII byte outside
`htmlSafeSet`. -/
def escapeByte (b : Nat) : Bytes :=
  if b = 0x5C ∨ b = 0x22 then [0x5C, b]
  else if b = 0x08 then [0x5C, 0x62]
  else if b = 0x0C then [0x5C, 0x66]
  else if b = 0x0A then [0x5C, 0x6E]
  else if b = 0x0D then [0x5C, 0x72]
  else if b = 0x09 then [0x5C, 0x74]
  else [0x5C, 0x75, 0x30, 0x30, hexDigit (b / 16), hexDigit (b % 16)]

/-- The loop of `appendString` of `encoding/json` (with `escapeHTML = true`),
between the two quotes. The first argument counts the bytes of the current
rune still to be passed over (`i += size`). -/
def appendStringLoop : Nat → GoString → Bytes
  | _, [] => []
  | skip + 1, _ :: rest => appendStringLoop skip rest
  | 0, b :: rest =>
    if b < 0x80 then
      (if htmlSafeSet b then [b] else escapeByte b) ++ appendStringLoop 0 rest
    else
      let d := decodeRune (b :: rest)
      if d.1 = RuneError ∧ d.2 = 1 then
        [0x5C, 0x75, 0x66, 0x66, 0x66, 0x64] ++ appendStringLoop 0 rest
      else if d.1 = 0x2028 ∨ d.1 = 0x2029 then
        [0x5C, 0x75, 0x32, 0x30, 0x32, hexDigit (d.1 % 16)] ++ appendStringLoop (d.2 - 1) rest
      else
        (b :: rest).take d.2 ++ appendStringLoop (d.2 - 1) rest

/-- Go `appendString(dst, src, true)` on an empty `dst`: the JSON string
literal for `src`. -/
def appendString (src : GoString) : Bytes :=
  [0x22] ++ appendStringLoop 0 src ++ [0x22]

/-! ## `encoding/json`: decoding

The decoder follows the two phases of `json.Unmarshal`: the whole input must
be one syntactically valid JSON value (`checkValid`, the scanner), and only
then is the value stored into the destination struct (`decodeState`). The
first phase is a recursive-descent reading of the scanner's grammar that
also carries out `unquote` on string literals; its result is the value tree
the second phase walks. -/

/-- A JSON value. The digits of a number are not kept: the destination
struct has only string fields, so a number is a type error whatever it is. -/
inductive JVal where
  | null : JVal
  | bool (b : Bool) : JVal
  | num : JVal
  | str (s : GoString) : JVal
  | arr (xs : List JVal) : JVal
  | obj (ms : List (GoString × JVal)) : JVal

/-- Go `isSpace` of the scanner: space, tab, carriage return, newline. -/
def isSpace (c : Nat) : Bool := c == 0x20 || c == 0x09 || c == 0x0D || c == 0x0A

/-- Skip JSON whitespace. -/
def skipSpace : Bytes → Bytes
  | [] => []
  | c :: rest => if isSpace c then skipSpace rest else c :: rest

/-- The value of a hexadecimal digit, as in `getu4`. -/
def hexVal (c : Nat) : Option Nat :=
  if 0x30 ≤ c ∧ c ≤ 0x39 then some (c - 0x30)
  else if 0x61 ≤ c ∧ c ≤ 0x66 then some (c - 0x61 + 10)
  else if 0x41 ≤ c ∧ c ≤ 0x46 then some (c - 0x41 + 10)
  else none

/-- Go `getu4`: the rune of a leading `\uXXXX`, or `none` (Go: -1). -/
def getu4 (s : Bytes) : Option Nat :=
  match s with
  | c0 :: c1 :: h1 :: h2 :: h3 :: h4 :: _ =>
    if c0 = 0x5C ∧ c1 = 0x75 then
      match hexVal h1, hexVal h2, hexVal h3, hexVal h4 with
      | some a, some b, some c, some d => some (((a * 16 + b) * 16 + c) * 16 + d)
      | _, _, _, _ => none
    else none
  | _ => none

/-- Go `utf16.IsSurrogate`. -/
def isSurrogate (r : Nat) : Bool := 0xD800 ≤ r && r < 0xE000

/-- Go `utf16.DecodeRune`: the rune of a surrogate pair, U+FFFD when the pair
is not valid. -/
def utf16DecodeRune (r1 r2 : Nat) : Nat :=
  if 0xD800 ≤ r1 ∧ r1 < 0xDC00 ∧ 0xDC00 ≤ r2 ∧ r2 < 0xE000 then
    (r1 - 0xD800) * 1024 + (r2 - 0xDC00) + 0x10000
  else 0xFFFD

/-- Prepend decoded bytes to the result of the rest of a string literal. -/
def emit (out : Bytes) (r : Option (GoString × Bytes)) : Option (GoString × Bytes) :=
  r.map (fun p => (out ++ p.1, p.2))

/-- A string literal after its opening quote: the scanner's `stateInString`
(ends at the first unescaped quote; rejects control characters and invalid
escapes) combined with `unquoteBytes` (decodes escapes, pairs surrogates and
coerces invalid UTF-8 to U+FFFD). Yields the decoded string and the input
after the closing quote. The first argument counts bytes of the current
escape or rune still to be passed over. -/
def unquoteLoop : Nat → Bytes → Option (GoString × Bytes)
  | _, [] => none
  | skip + 1, _ :: rest => unquoteLoop skip rest
  | 0, c :: rest =>
    if c = 0x22 then some ([], rest)
    else if c = 0x5C then
      match rest with
      | [] => none
      | e :: _ =>
        if e = 0x22 ∨ e = 0x5C ∨ e = 0x2F then emit [e] (unquoteLoop 1 rest)
        else if e = 0x62 then emit [0x08] (unquoteLoop 1 rest)
        else if e = 0x66 then emit [0x0C] (unquoteLoop 1 rest)
        else if e = 0x6E then emit [0x0A] (unquoteLoop 1 rest)
        else if e = 0x72 then emit [0x0D] (unquoteLoop 1 rest)
        else if e = 0x74 then emit [0x09] (unquoteLoop 1 rest)
        else if e = 0x75 then
          match getu4 (c :: rest) with
          | none => none
          | some rr =>
            if isSurrogate rr then
              match getu4 (rest.drop 5) with
              | none => emit (encodeRune 0xFFFD) (unquoteLoop 5 rest)
              | some rr1 =>
                if utf16DecodeRune rr rr1 ≠ 0xFFFD then
                  emit (encodeRune (utf16DecodeRune rr rr1)) (unquoteLoop 11 rest)
                else emit (encodeRune 0xFFFD) (unquoteLoop 5 rest)
            else emit (encodeRune rr) (unquoteLoop 5 rest)
        else none
    else if c < 0x20 then none
    else if c < 0x80 then emit [c] (unquoteLoop 0 rest)
    else
      let d := decodeRune (c :: rest)
      emit (encodeRune d.1) (unquoteLoop (d.2 - 1) rest)

/-- Whether a byte is an ASCII digit. -/
def isDigit (c : Nat) : Bool := 0x30 ≤ c && c ≤ 0x39

/-- Drop leading ASCII digits. -/
def skipDigits : Bytes → Bytes
  | [] => []
  | c :: rest => if isDigit c then skipDigits rest else c :: rest

/-- The scanner's states `stateE`, `stateESign`, `stateE0`: an optional sign
and at least one digit after `e` or `E`; yields the input after the number. -/
def scanExponent (s : Bytes) : Option Bytes :=
  let s1 := match s with
    | c :: t => if c = 0x2B ∨ c = 0x2D then t else s
    | [] => s
  match s1 with
  | c :: t => if isDigit c then some (skipDigits t) else none
  | [] => none

/-- The scanner's states `state0`, `stateDot`, `stateDot0`: after the
integer part, an optional fraction and an optional exponent. -/
def scanFraction (s : Bytes) : Option Bytes :=
  match s with
  | c :: t =>
    if c = 0x2E then
      match t with
      | d :: t1 =>
        if isDigit d then
          match skipDigits t1 with
          | e :: t2 => if e = 0x65 ∨ e = 0x45 then scanExponent t2 else some (e :: t2)
          | [] => some []
        else none
      | [] => none
    else if c = 0x65 ∨ c = 0x45 then scanExponent t
    else some s
  | [] => some []

/-- The scanner's number states from `stateBeginValue`: an optional minus,
then `0` or a non-zero digit followed by digits, then fraction and exponent;
yields the input after the number. -/
def scanNumber (s : Bytes) : Option Bytes :=
  let s1 := match s with
    | c :: t => if c = 0x2D then t else s
    | [] => s
  match s1 with
  | c :: t =>
    if c = 0x30 then scanFraction t
    else if 0x31 ≤ c ∧ c ≤ 0x39 then scanFraction (skipDigits t)
    else none
  | [] => none

/-- The scanner's limit on nesting (`maxNestingDepth`). -/
def maxNestingDepth : Nat := 10000

mutual
/-- One JSON value at the head of the input (leading whitespace allowed);
yields the value and the input after it. The first argument bounds the
number of nested calls, the second is the current nesting depth. -/
def parseValue : Nat → Nat → Bytes → Option (JVal × Bytes)
  | 0, _, _ => none
  | fuel + 1, depth, s =>
    match skipSpace s with
    | [] => none
    | c :: t =>
      if c = 0x7B then
        if depth + 1 > maxNestingDepth then none
        else
          match skipSpace t with
          | [] => none
          | c1 :: t1 =>
            if c1 = 0x7D then some (JVal.obj [], t1)
            else (parseMembers fuel (depth + 1) (c1 :: t1)).map (fun p => (JVal.obj p.1, p.2))
      else if c = 0x5B then
        if depth + 1 > maxNestingDepth then none
        else
          match skipSpace t with
          | [] => none
          | c1 :: t1 =>
            if c1 = 0x5D then some (JVal.arr [], t1)
            else (parseElems fuel (depth + 1) (c1 :: t1)).map (fun p => (JVal.arr p.1, p.2))
      else if c = 0x22 then (unquoteLoop 0 t).map (fun p => (JVal.str p.1, p.2))
      else if c = 0x2D ∨ isDigit c then (scanNumber (c :: t)).map (fun r => (JVal.num, r))
      else if c = 0x74 then
        match t with
        | 0x72 :: 0x75 :: 0x65 :: r => some (JVal.bool true, r)
        | _ => none
      else if c = 0x66 then
        match t with
        | 0x61 :: 0x6C :: 0x73 :: 0x65 :: r => some (JVal.bool false, r)
        | _ => none
      else if c = 0x6E then
        match t with
        | 0x75 :: 0x6C :: 0x6C :: r => some (JVal.null, r)
        | _ => none
      else none
/-- The members of a non-empty object, from the quote of the first key up to
and including the closing brace. -/
def parseMembers : Nat → Nat → Bytes → Option (List (GoString × JVal) × Bytes)
  | 0, _, _ => none
  | fuel + 1, depth, s =>
    match s with
    | [] => none
    | q :: t =>
      if q = 0x22 then
        match unquoteLoop 0 t with
        | none => none
        | some (key, r1) =>
          match skipSpace r1 with
          | [] => none
          | c :: r2 =>
            if c = 0x3A then
              match parseValue fuel depth r2 with
              | none => none
              | some (v, r3) =>
                match skipSpace r3 with
                | [] => none
                | c1 :: r4 =>
                  if c1 = 0x2C then
                    (parseMembers fuel depth (skipSpace r4)).map
                      (fun p => ((key, v) :: p.1, p.2))
                  else if c1 = 0x7D then some ([(key, v)], r4)
                  else none
            else none
      else none
/-- The elements of a non-empty array, from the first element up to and
including the closing bracket. -/
def parseElems : Nat → Nat → Bytes → Option (List JVal × Bytes)
  | 0, _, _ => none
  | fuel + 1, depth, s =>
    match parseValue fuel depth s with
    | none => none
    | some (v, r) =>
      match skipSpace r with
      | [] => none
      | c :: r1 =>
        if c = 0x2C then (parseElems fuel depth r1).map (fun p => (v :: p.1, p.2))
        else if c = 0x5D then some ([v], r1)
        else none
end

/-- The first phase of `json.Unmarshal`: the input is exactly one JSON value
surrounded by optional whitespace. The bound of one more than the length is
never the reason for a failure (`parseValue_fuel`). -/
def jsonParse (data : Bytes) : Option JVal :=
  match parseValue (data.length + 1) 0 data with
  | none => none
  | some (v, r) => if skipSpace r = [] then some v else none

/-! ## The `Agent` record and its JSON codec -/

/-- Go `type Agent struct`: nine string fields. -/
structure Agent where
  ID : GoString
  DID : GoString
  Name : GoString
  Address : GoString
  Represents : GoString
  AgentType : GoString
  Roles : GoString
  IAM : GoString
  Status : GoString
  deriving DecidableEq, Repr

/-- The fields of `Agent`, in declaration order. -/
inductive Field where
  | ID | DID | Name | Address | Represents | AgentType | Roles | IAM | Status
  deriving DecidableEq, Repr

/-- The fields in the order `encoding/json` visits them. -/
def Field.all : List Field :=
  [.ID, .DID, .Name, .Address, .Represents, .AgentType, .Roles, .IAM, .Status]

/-- The JSON name of each field: the struct tags `json:"ID"` ... `json:"STATUS"`. -/
def Field.tag : Field → GoString
  | .ID => goStr "ID"
  | .DID => goStr "DID"
  | .Name => goStr "NAME"
  | .Address => goStr "ADDRESS"
  | .Represents => goStr "REPRESENTS"
  | .AgentType => goStr "TYPE"
  | .Roles => goStr "ROLES"
  | .IAM => goStr "IAM"
  | .Status => goStr "STATUS"

/-- Read a field of an agent. -/
def Agent.get (a : Agent) : Field → GoString
  | .ID => a.ID
  | .DID => a.DID
  | .Name => a.Name
  | .Address => a.Address
  | .Represents => a.Represents
  | .AgentType => a.AgentType
  | .Roles => a.Roles
  | .IAM => a.IAM
  | .Status => a.Status

/-- Assign a field of an agent. -/
def Agent.set (a : Agent) (f : Field) (v : GoString) : Agent :=
  match f with
  | .ID => { a with ID := v }
  | .DID => { a with DID := v }
  | .Name => { a with Name := v }
  | .Address => { a with Address := v }
  | .Represents => { a with Represents := v }
  | .AgentType => { a with AgentType := v }
  | .Roles => { a with Roles := v }
  | .IAM => { a with IAM := v }
  | .Status => { a with Status := v }

/-- The zero value of `Agent` (`var agent Agent`). -/
def Agent.zero : Agent := ⟨[], [], [], [], [], [], [], [], []⟩

/-- The errors of `encoding/json` that decoding into `Agent` can return. -/
inductive JsonError where
  /-- A `*json.SyntaxError`: the input is not one valid JSON value. -/
  | malformed : JsonError
  /-- A `*json.UnmarshalTypeError`: a JSON value of kind `value` cannot be
  stored in the struct (`field = none`) or in the string field `field`. -/
  | unmarshalType (value : GoString) (field : Option Field) : JsonError
  deriving DecidableEq, Repr

/-- The errors the operations of the contract return. A Go `error` is a
message; each constructor is one way the source builds it. -/
inductive Error where
  /-- The error `fmt.Errorf("the agent %s already exists", id)`. -/
  | alreadyExists (id : GoString) : Error
  /-- The error `fmt.Errorf("the agent %s does not exist", id)`. -/
  | doesNotExist (id : GoString) : Error
  /-- The error `fmt.Errorf("failed to read from world state: %v", err)`. -/
  | readFailed (cause : GoString) : Error
  /-- The error `fmt.Errorf("failed to put to world state. %v", err)`. -/
  | putFailed (cause : GoString) : Error
  /-- An error of the stub returned unchanged (`return err`). -/
  | stub (cause : GoString) : Error
  /-- An error of `encoding/json` returned unchanged. -/
  | json (e : JsonError) : Error
  deriving DecidableEq, Repr

/-- The struct encoder of `encoding/json` for `Agent`: before each field the
pending separator (`\x7b` first, then a comma), the quoted name and a colon,
then the value as a string literal; at the end the closing brace. -/
def encodeFields (a : Agent) : Nat → List Field → Bytes
  | next, [] => if next = 0x7B then [0x7B, 0x7D] else [0x7D]
  | next, f :: fs =>
    [next] ++ ([0x22] ++ f.tag ++ [0x22, 0x3A]) ++ appendString (a.get f)
      ++ encodeFields a 0x2C fs

/-- Go `json.Marshal(agent)`. A struct of strings always encodes, so the
result is never an error. -/
def jsonMarshal (a : Agent) : Except Error Bytes :=
  .ok (encodeFields a 0x7B Field.all)

/-- Go `foldRune` on the runes that matter for matching an ASCII name: the
two non-ASCII runes whose case-folding orbit contains an ASCII letter
(U+017F long s and U+212A Kelvin sign). Every other non-ASCII rune folds to
a non-ASCII rune, which never equals a byte of a field name. -/
def foldRune (r : Nat) : Nat :=
  if r = 0x17F then 0x53 else if r = 0x212A then 0x4B else r

/-- Go `foldName`/`appendFoldedName`: ASCII letters to upper case, other
runes through `foldRune`. -/
def foldNameLoop : Nat → Bytes → Bytes
  | _, [] => []
  | skip + 1, _ :: rest => foldNameLoop skip rest
  | 0, c :: rest =>
    if c < 0x80 then
      (if 0x61 ≤ c ∧ c ≤ 0x7A then c - 0x20 else c) :: foldNameLoop 0 rest
    else
      let d := decodeRune (c :: rest)
      encodeRune (foldRune d.1) ++ foldNameLoop (d.2 - 1) rest

/-- Go `foldName`. -/
def foldName (name : Bytes) : Bytes := foldNameLoop 0 name

/-- The field a JSON object key selects: an exact match of a field name
first (`byExactName`), otherwise a match up to case folding
(`byFoldedName`). -/
def lookupField (key : GoString) : Option Field :=
  match Field.all.find? (fun f => f.tag == key) with
  | some f => some f
  | none => Field.all.find? (fun f => foldName f.tag == foldName key)

/-- The Go name of the kind of a JSON value, as in `UnmarshalTypeError.Value`. -/
def JVal.kind : JVal → GoString
  | .null => goStr "null"
  | .bool _ => goStr "bool"
  | .num => goStr "number"
  | .str _ => goStr "string"
  | .arr _ => goStr "array"
  | .obj _ => goStr "object"

/-- Store one object member: a key naming no field is skipped; a string is
assigned; `null` leaves the field as it is; any other value records a type
error (only the first is kept, `saveError`) and decoding goes on. -/
def storeMember (st : Agent × Option JsonError) (m : GoString × JVal) :
    Agent × Option JsonError :=
  match lookupField m.1 with
  | none => st
  | some f =>
    match m.2 with
    | .str s => (st.1.set f s, st.2)
    | .null => st
    | v =>
      (st.1, match st.2 with
        | some e => some e
        | none => some (.unmarshalType v.kind (some f)))

/-- Go `json.Unmarshal(data, &agent)` for a zero `agent`: a syntax error
when the input is not valid JSON; an object fills the fields; `null` leaves
the zero value; any other value is a type error. -/
def jsonUnmarshal (data : Bytes) : Except Error Agent :=
  match jsonParse data with
  | none => .error (.json .malformed)
  | some v =>
    match v with
    | .obj ms =>
      match ms.foldl storeMember (Agent.zero, none) with
      | (a, none) => .ok a
      | (_, some e) => .error (.json e)
    | .null => .ok Agent.zero
    | v => .error (.json (.unmarshalType v.kind none))

/-! ## The world state and the ledger stub

The stub (`ctx.GetStub()`) is an external collaborator. It is modelled by
its contract: a durable mapping from keys to byte values, enumerated by a
range scan in ascending byte-wise key order, whose primitives may fail. -/

/-- Byte-wise lexicographic order on keys. -/
def keyLt : GoString → GoString → Bool
  | [], [] => false
  | [], _ :: _ => true
  | _ :: _, [] => false
  | a :: as, b :: bs => if a < b then true else if b < a then false else keyLt as bs

theorem keyLt_irrefl (a : GoString) : keyLt a a = false := by
  induction a with
  | nil => rfl
  | cons x xs ih => simp [keyLt, ih]

theorem keyLt_trans {a b c : GoString} (hab : keyLt a b = true) (hbc : keyLt b c = true) :
    keyLt a c = true := by
  induction a generalizing b c with
  | nil =>
    cases b with
    | nil => simp [keyLt] at hab
    | cons y ys =>
      cases c with
      | nil => simp [keyLt] at hbc
      | cons z zs => simp [keyLt]
  | cons x xs ih =>
    cases b with
    | nil => simp [keyLt] at hab
    | cons y ys =>
      cases c with
      | nil => simp [keyLt] at hbc
      | cons z zs =>
        simp only [keyLt] at hab hbc ⊢
        split_ifs at hab hbc ⊢ <;> first | rfl | omega | exact ih hab hbc

/-- The entries of a store are in strictly ascending key order (so no key
occurs twice). -/
def Ascending (l : List (GoString × Bytes)) : Prop :=
  l.Pairwise (fun x y => keyLt x.1 y.1 = true)

/-- The world state: key-value entries in strictly ascending key order. -/
structure Store where
  entries : List (GoString × Bytes)
  sorted : Ascending entries

/-- Two stores with the same entries are the same store. -/
theorem Store.ext_entries {s t : Store} (h : s.entries = t.entries) : s = t := by
  cases s; cases t; cases h; rfl

instance : DecidableEq Store := fun s t =>
  if h : s.entries = t.entries then isTrue (Store.ext_entries h)
  else isFalse (fun e => h (by rw [e]))

/-- The empty world state. -/
def Store.empty : Store := ⟨[], List.Pairwise.nil⟩

/-- The value at a key, if present. -/
def Store.get (s : Store) (key : GoString) : Option Bytes := s.entries.lookup key

theorem ascending_put (l : List (GoString × Bytes)) (h : Ascending l) (key : GoString)
    (value : Bytes) :
    Ascending (l.filter (fun e => keyLt e.1 key) ++
      (key, value) :: l.filter (fun e => keyLt key e.1)) := by
  unfold Ascending at *
  rw [List.pairwise_append]
  refine ⟨h.sublist (List.filter_sublist _), ?_, ?_⟩
  · rw [List.pairwise_cons]
    refine ⟨?_, h.sublist (List.filter_sublist _)⟩
    intro y hy
    simpa using (List.mem_filter.mp hy).2
  · intro x hx y hy
    have hx1 : keyLt x.1 key = true := by simpa using (List.mem_filter.mp hx).2
    rcases List.mem_cons.mp hy with rfl | hy2
    · exact hx1
    · have hy1 : keyLt key y.1 = true := by simpa using (List.mem_filter.mp hy2).2
      exact keyLt_trans hx1 hy1

/-- Write a value at a key: the entry takes its place in key order, and
replaces the entry of that key if there is one. -/
def Store.put (s : Store) (key : GoString) (value : Bytes) : Store :=
  ⟨s.entries.filter (fun e => keyLt e.1 key) ++
      (key, value) :: s.entries.filter (fun e => keyLt key e.1),
    ascending_put s.entries s.sorted key value⟩

/-- Remove a key. -/
def Store.del (s : Store) (key : GoString) : Store :=
  ⟨s.entries.filter (fun e => e.1 != key), s.sorted.sublist (List.filter_sublist _)⟩

/-- The entries of a range scan: keys from `startKey` (inclusive) up to
`endKey` (exclusive) in ascending order; an empty bound is no bound. -/
def Store.range (s : Store) (startKey endKey : GoString) : List (GoString × Bytes) :=
  s.entries.filter (fun e =>
    (startKey == [] || !keyLt e.1 startKey) && (endKey == [] || keyLt e.1 endKey))

/-- A call of a primitive of the stub or of a range iterator. -/
inductive Call where
  | getState (key : GoString) : Call
  | putState (key : GoString) (value : Bytes) : Call
  | delState (key : GoString) : Call
  | getStateByRange (startKey endKey : GoString) : Call
  | hasNext : Call
  | next : Call
  | close : Call
  deriving DecidableEq, Repr

/-- The failures of the stub during one invocation: for each primitive and
argument, the message of the error it returns, or `none` when it succeeds.
The failure of `Next` depends on how many results were read before. -/
structure Faults where
  getState : GoString → Option GoString
  putState : GoString → Bytes → Option GoString
  delState : GoString → Option GoString
  getStateByRange : GoString → GoString → Option GoString
  next : Nat → Option GoString

/-- The stub that never fails. -/
def Faults.none : Faults :=
  ⟨fun _ => Option.none, fun _ _ => Option.none, fun _ => Option.none,
   fun _ _ => Option.none, fun _ => Option.none⟩

/-- The state an operation runs against: the world state and the calls made
on the stub so far, oldest first. -/
structure World where
  store : Store
  trace : List Call
  deriving DecidableEq

/-- Record a call in the trace. -/
def World.log (w : World) (c : Call) : World := { w with trace := w.trace ++ [c] }

/-- Stub `GetState(key)`: the value (`none` is Go's `nil`: no such key), or
an error. -/
def GetState (f : Faults) (key : GoString) (w : World) :
    Except GoString (Option Bytes) × World :=
  match f.getState key with
  | some err => (.error err, w.log (.getState key))
  | none => (.ok (w.store.get key), w.log (.getState key))

/-- Stub `PutState(key, value)`; a failed write leaves the world state as
it was. -/
def PutState (f : Faults) (key : GoString) (value : Bytes) (w : World) :
    Except GoString Unit × World :=
  match f.putState key value with
  | some err => (.error err, w.log (.putState key value))
  | none => (.ok (), { (w.log (.putState key value)) with store := w.store.put key value })

/-- Stub `DelState(key)`; a failed delete leaves the world state as it was. -/
def DelState (f : Faults) (key : GoString) (w : World) : Except GoString Unit × World :=
  match f.delState key with
  | some err => (.error err, w.log (.delState key))
  | none => (.ok (), { (w.log (.delState key)) with store := w.store.del key })

/-- Stub `GetStateByRange(startKey, endKey)`: the results the iterator will
yield, or an error. -/
def GetStateByRange (f : Faults) (startKey endKey : GoString) (w : World) :
    Except GoString (List (GoString × Bytes)) × World :=
  match f.getStateByRange startKey endKey with
  | some err => (.error err, w.log (.getStateByRange startKey endKey))
  | none => (.ok (w.store.range startKey endKey), w.log (.getStateByRange startKey endKey))

/-! ## The operations of `SmartContract` -/

/-- The bootstrap records of `InitLedger`. -/
def initAgents : List Agent :=
  [ { ID := goStr "agent1", DID := goStr "agent1@myssi.org", Name := goStr "Number One",
      Address := [], Represents := [], AgentType := [], Roles := [], IAM := [], Status := [] },
    { ID := goStr "agent2", DID := goStr "agent2@myssi.org", Name := goStr "Number Two",
      Address := [], Represents := [], AgentType := [], Roles := [], IAM := [], Status := [] },
    { ID := goStr "agent3", DID := goStr "agent3@myssi.org", Name := goStr "Number Three",
      Address := [], Represents := [], AgentType := [], Roles := [], IAM := [], Status := [] } ]

/-- The loop of `InitLedger` over the records still to be written. -/
def initLoop (f : Faults) : List Agent → World → Except Error Unit × World
  | [], w => (.ok (), w)
  | agent :: rest, w =>
    match jsonMarshal agent with
    | .error err => (.error err, w)
    | .ok agentJSON =>
      match PutState f agent.ID agentJSON w with
      | (.error err, w1) => (.error (.putFailed err), w1)
      | (.ok _, w1) => initLoop f rest w1

/-- Go `InitLedger`: adds a base set of agents to the ledger. -/
def InitLedger (f : Faults) (w : World) : Except Error Unit × World :=
  initLoop f initAgents w

/-- Go `agentExists`: true when the world state holds a value at `id`. -/
def agentExists (f : Faults) (id : GoString) (w : World) : Except Error Bool × World :=
  match GetState f id w with
  | (.error err, w1) => (.error (.readFailed err), w1)
  | (.ok agentJSON, w1) => (.ok agentJSON.isSome, w1)

/-- Go `Createagent`: issues a new agent to the world state. -/
def Createagent (f : Faults) (id did name address represents agentType roles iam : GoString)
    (w : World) : Except Error Unit × World :=
  match agentExists f id w with
  | (.error err, w1) => (.error err, w1)
  | (.ok exists_, w1) =>
    if exists_ then (.error (.alreadyExists id), w1)
    else
      let agent : Agent :=
        { ID := id, DID := did, Name := name, Address := address, Represents := represents,
          AgentType := agentType, Roles := roles, IAM := iam, Status := goStr "active" }
      match jsonMarshal agent with
      | .error err => (.error err, w1)
      | .ok agentJSON =>
        match PutState f id agentJSON w1 with
        | (.error err, w2) => (.error (.stub err), w2)
        | (.ok _, w2) => (.ok (), w2)

/-- Go `Readagent`: the agent stored in the world state at `id`. -/
def Readagent (f : Faults) (id : GoString) (w : World) : Except Error Agent × World :=
  match GetState f id w with
  | (.error err, w1) => (.error (.readFailed err), w1)
  | (.ok none, w1) => (.error (.doesNotExist id), w1)
  | (.ok (some agentJSON), w1) =>
    match jsonUnmarshal agentJSON with
    | .error err => (.error err, w1)
    | .ok agent => (.ok agent, w1)

/-- Go `Updateagent`: overwrites an existing agent with the given values. -/
def Updateagent (f : Faults)
    (id did name address represents agentType roles iam status : GoString)
    (w : World) : Except Error Unit × World :=
  match agentExists f id w with
  | (.error err, w1) => (.error err, w1)
  | (.ok exists_, w1) =>
    if !exists_ then (.error (.doesNotExist id), w1)
    else
      let agent : Agent :=
        { ID := id, DID := did, Name := name, Address := address, Represents := represents,
          AgentType := agentType, Roles := roles, IAM := iam, Status := status }
      match jsonMarshal agent with
      | .error err => (.error err, w1)
      | .ok agentJSON =>
        match PutState f id agentJSON w1 with
        | (.error err, w2) => (.error (.stub err), w2)
        | (.ok _, w2) => (.ok (), w2)

/-- Go `Deleteagent`: deletes a given agent from the world state. -/
def Deleteagent (f : Faults) (id : GoString) (w : World) : Except Error Unit × World :=
  match agentExists f id w with
  | (.error err, w1) => (.error err, w1)
  | (.ok exists_, w1) =>
    if !exists_ then (.error (.doesNotExist id), w1)
    else
      match DelState f id w1 with
      | (.error err, w2) => (.error (.stub err), w2)
      | (.ok _, w2) => (.ok (), w2)

/-- The loop of `GetAllagents`: `results` are the entries the iterator has
yet to yield, `pos` the number already read, `agents` the slice built so
far. Each turn calls `HasNext`, then `Next`, then decodes the value. -/
def getAllLoop (f : Faults) :
    Nat → List (GoString × Bytes) → List Agent → World → Except Error (List Agent) × World
  | _, [], agents, w => (.ok agents, w.log .hasNext)
  | pos, queryResponse :: rest, agents, w =>
    match f.next pos with
    | some err => (.error (.stub err), (w.log .hasNext).log .next)
    | none =>
      match jsonUnmarshal queryResponse.2 with
      | .error err => (.error err, (w.log .hasNext).log .next)
      | .ok agent => getAllLoop f (pos + 1) rest (agents ++ [agent]) ((w.log .hasNext).log .next)

/-- Go `GetAllagents`: all agents found in the world state. The iterator is
closed on every path once it has been opened (`defer`). -/
def GetAllagents (f : Faults) (w : World) : Except Error (List Agent) × World :=
  match GetStateByRange f [] [] w with
  | (.error err, w1) => (.error (.stub err), w1)
  | (.ok results, w1) =>
    match getAllLoop f 0 results [] w1 with
    | (r, w2) => (r, w2.log .close)

/-! ## Auxiliary definitions for the statements -/

/-- The coercion to valid UTF-8 that `encoding/json` applies to a string
("replacing invalid bytes with the Unicode replacement rune"): every
position that does not decode is replaced by the encoding of U+FFFD. -/
def coerceLoop : Nat → Bytes → Bytes
  | _, [] => []
  | skip + 1, _ :: rest => coerceLoop skip rest
  | 0, b :: rest =>
    if b < 0x80 then b :: coerceLoop 0 rest
    else
      let d := decodeRune (b :: rest)
      encodeRune d.1 ++ coerceLoop (d.2 - 1) rest

/-- A string coerced to valid UTF-8. -/
def coerceUTF8 (s : GoString) : GoString := coerceLoop 0 s

/-- An agent with every field coerced to valid UTF-8. -/
def Agent.coerce (a : Agent) : Agent :=
  ⟨coerceUTF8 a.ID, coerceUTF8 a.DID, coerceUTF8 a.Name, coerceUTF8 a.Address,
   coerceUTF8 a.Represents, coerceUTF8 a.AgentType, coerceUTF8 a.Roles, coerceUTF8 a.IAM,
   coerceUTF8 a.Status⟩

/-- Every field of the agent is valid UTF-8. -/
def Agent.valid (a : Agent) : Bool :=
  validUTF8 a.ID && validUTF8 a.DID && validUTF8 a.Name && validUTF8 a.Address &&
  validUTF8 a.Represents && validUTF8 a.AgentType && validUTF8 a.Roles && validUTF8 a.IAM &&
  validUTF8 a.Status

/-- The members `encoding/json` writes for a list of fields, as the decoder
reads them. -/
def membersOf (a : Agent) (fs : List Field) : List (GoString × JVal) :=
  fs.map (fun f => (f.tag, JVal.str (coerceUTF8 (a.get f))))

/-- The record `Createagent` builds from its arguments. -/
def newAgent (id did name address represents agentType roles iam : GoString) : Agent :=
  { ID := id, DID := did, Name := name, Address := address, Represents := represents,
    AgentType := agentType, Roles := roles, IAM := iam, Status := goStr "active" }

/-- One level of `parseValue`, with the readers of the nested members and
elements as parameters. -/
def valueStep (pm : Nat → Bytes → Option (List (GoString × JVal) × Bytes))
    (pe : Nat → Bytes → Option (List JVal × Bytes)) (depth : Nat) (s : Bytes) :
    Option (JVal × Bytes) :=
  match skipSpace s with
  | [] => none
  | c :: t =>
    if c = 0x7B then
      if depth + 1 > maxNestingDepth then none
      else
        match skipSpace t with
        | [] => none
        | c1 :: t1 =>
          if c1 = 0x7D then some (JVal.obj [], t1)
          else (pm (depth + 1) (c1 :: t1)).map (fun p => (JVal.obj p.1, p.2))
    else if c = 0x5B then
      if depth + 1 > maxNestingDepth then none
      else
        match skipSpace t with
        | [] => none
        | c1 :: t1 =>
          if c1 = 0x5D then some (JVal.arr [], t1)
          else (pe (depth + 1) (c1 :: t1)).map (fun p => (JVal.arr p.1, p.2))
    else if c = 0x22 then (unquoteLoop 0 t).map (fun p => (JVal.str p.1, p.2))
    else if c = 0x2D ∨ isDigit c then (scanNumber (c :: t)).map (fun r => (JVal.num, r))
    else if c = 0x74 then
      match t with
      | 0x72 :: 0x75 :: 0x65 :: r => some (JVal.bool true, r)
      | _ => none
    else if c = 0x66 then
      match t with
      | 0x61 :: 0x6C :: 0x73 :: 0x65 :: r => some (JVal.bool false, r)
      | _ => none
    else if c = 0x6E then
      match t with
      | 0x75 :: 0x6C :: 0x6C :: r => some (JVal.null, r)
      | _ => none
    else none

/-- One level of `parseMembers`, with the readers of the value and of the
following members as parameters. -/
def membersStep (pv : Nat → Bytes → Option (JVal × Bytes))
    (pm : Nat → Bytes → Option (List (GoString × JVal) × Bytes)) (depth : Nat) (s : Bytes) :
    Option (List (GoString × JVal) × Bytes) :=
  match s with
  | [] => none
  | q :: t =>
    if q = 0x22 then
      match unquoteLoop 0 t with
      | none => none
      | some (key, r1) =>
        match skipSpace r1 with
        | [] => none
        | c :: r2 =>
          if c = 0x3A then
            match pv depth r2 with
            | none => none
            | some (v, r3) =>
              match skipSpace r3 with
              | [] => none
              | c1 :: r4 =>
                if c1 = 0x2C then
                  (pm depth (skipSpace r4)).map (fun p => ((key, v) :: p.1, p.2))
                else if c1 = 0x7D then some ([(key, v)], r4)
                else none
          else none
    else none

/-- One level of `parseElems`, with the readers of the value and of the
following elements as parameters. -/
def elemsStep (pv : Nat → Bytes → Option (JVal × Bytes))
    (pe : Nat → Bytes → Option (List JVal × Bytes)) (depth : Nat) (s : Bytes) :
    Option (List JVal × Bytes) :=
  match pv depth s with
  | none => none
  | some (v, r) =>
    match skipSpace r with
    | [] => none
    | c :: r1 =>
      if c = 0x2C then (pe depth r1).map (fun p => (v :: p.1, p.2))
      else if c = 0x5D then some ([v], r1)
      else none

/-- The bytes `json.Marshal` returns for an agent. -/
def Agent.encoding (a : Agent) : Bytes := encodeFields a 0x7B Field.all

/-- The calls of `n` turns of the loop of `GetAllagents` that reach `Next`. -/
def nextCalls : Nat → List Call
  | 0 => []
  | n + 1 => [Call.hasNext, Call.next] ++ nextCalls n

/-- A call that writes to the world state. -/
def Call.isWrite : Call → Bool
  | .putState _ _ => true
  | .delState _ => true
  | _ => false

/-- The store after the three writes of `InitLedger`. -/
def seeded (s : Store) : Store :=
  initAgents.foldl (fun s a => s.put a.ID (encodeFields a 0x7B Field.all)) s

/-- The message of an error (Go `err.Error()`), as the source formats it.
The text of an error of `encoding/json` is a parameter. -/
def Error.message (jsonText : JsonError → GoString) : Error → GoString
  | .alreadyExists id => goStr "the agent " ++ id ++ goStr " already exists"
  | .doesNotExist id => goStr "the agent " ++ id ++ goStr " does not exist"
  | .readFailed cause => goStr "failed to read from world state: " ++ cause
  | .putFailed cause => goStr "failed to put to world state. " ++ cause
  | .stub cause => cause
  | .json e => jsonText e

/-- A call of one of the operations that write, with the failures of the
stub during the call and the arguments. -/
inductive Op where
  | init (f : Faults) : Op
  | create (f : Faults) (id did name address represents agentType roles iam : GoString) : Op
  | update (f : Faults)
      (id did name address represents agentType roles iam status : GoString) : Op
  | delete (f : Faults) (id : GoString) : Op

/-- The world after a call, whether it succeeded or failed. -/
def Op.run : Op → World → World
  | .init f, w => (InitLedger f w).2
  | .create f id did name address represents agentType roles iam, w =>
    (Createagent f id did name address represents agentType roles iam w).2
  | .update f id did name address represents agentType roles iam status, w =>
    (Updateagent f id did name address represents agentType roles iam status w).2
  | .delete f id, w => (Deleteagent f id w).2

/-- The world after a sequence of calls. -/
def runAll (ops : List Op) (w : World) : World := ops.foldl (fun w o => o.run w) w

/-- The id argument of a call that writes a record is valid UTF-8. -/
def Op.idValid : Op → Bool
  | .init _ => true
  | .create _ id _ _ _ _ _ _ _ => validUTF8 id
  | .update _ id _ _ _ _ _ _ _ _ => validUTF8 id
  | .delete _ _ => true

/-- Every present key holds bytes that decode to an agent whose ID is the
key. -/
def KeyIdInvariant (s : Store) : Prop :=
  ∀ k v, s.get k = some v → ∃ a, jsonUnmarshal v = .ok a ∧ a.ID = k

instance {ε α : Type} [DecidableEq ε] [DecidableEq α] : DecidableEq (Except ε α) := fun x y =>
  match x, y with
  | .ok a, .ok b =>
    if h : a = b then isTrue (by rw [h]) else isFalse (fun e => h (by cases e; rfl))
  | .error a, .error b =>
    if h : a = b then isTrue (by rw [h]) else isFalse (fun e => h (by cases e; rfl))
  | .ok _, .error _ => isFalse (fun e => by cases e)
  | .error _, .ok _ => isFalse (fun e => by cases e)

/-! ## UTF-8: decoding and encoding -/

theorem first_ascii (p0 : Nat) (h : p0 < 0x80) : first p0 = 0xF0 := by
  unfold first; rw [if_pos h]

theorem first_invalid (p0 : Nat) (h : 0x80 ≤ p0 ∧ p0 < 0xC2 ∨ 0xF5 ≤ p0) : first p0 = 0xF1 := by
  unfold first
  rcases h with ⟨h0, h1⟩ | h0
  · rw [if_neg (by omega), if_pos h1]
  · rw [if_neg (by omega), if_neg (by omega), if_neg (by omega), if_neg (by omega),
      if_neg (by omega), if_neg (by omega), if_neg (by omega), if_neg (by omega),
      if_neg (by omega), if_neg (by omega)]

theorem first_two (p0 : Nat) (h0 : 0xC2 ≤ p0) (h1 : p0 < 0xE0) : first p0 = 0x02 := by
  unfold first
  rw [if_neg (by omega), if_neg (by omega), if_pos h1]

theorem first_three (p0 : Nat) (h0 : 0xE0 ≤ p0) (h1 : p0 < 0xF0) :
    first p0 = if p0 = 0xE0 then 0x13 else if p0 = 0xED then 0x23 else 0x03 := by
  unfold first
  rw [if_neg (by omega), if_neg (by omega), if_neg (by omega)]
  split_ifs <;> omega

theorem first_four (p0 : Nat) (h0 : 0xF0 ≤ p0) (h1 : p0 < 0xF5) :
    first p0 = if p0 = 0xF0 then 0x34 else if p0 = 0xF4 then 0x44 else 0x04 := by
  unfold first
  rw [if_neg (by omega), if_neg (by omega), if_neg (by omega), if_neg (by omega),
    if_neg (by omega), if_neg (by omega), if_neg (by omega)]
  split_ifs <;> omega

theorem decodeRune_ascii (p0 : Nat) (t : Bytes) (h : p0 < 0x80) :
    decodeRune (p0 :: t) = (p0, 1) := by
  simp [decodeRune, first_ascii p0 h]

theorem decodeRune_invalid (p0 : Nat) (t : Bytes) (h : 0x80 ≤ p0 ∧ p0 < 0xC2 ∨ 0xF5 ≤ p0) :
    decodeRune (p0 :: t) = (RuneError, 1) := by
  simp [decodeRune, first_invalid p0 h]

theorem decodeRune_two (p0 : Nat) (t : Bytes) (h0 : 0xC2 ≤ p0) (h1 : p0 < 0xE0) :
    decodeRune (p0 :: t) =
      match t with
      | b1 :: _ =>
        if 0x80 ≤ b1 ∧ b1 ≤ 0xBF then ((p0 % 32) * 64 + b1 % 64, 2) else (RuneError, 1)
      | [] => (RuneError, 1) := by
  rcases t with _ | ⟨b1, t1⟩
  · simp [decodeRune, first_two p0 h0 h1]
  · simp only [decodeRune, first_two p0 h0 h1, acceptRanges]
    norm_num
    split_ifs <;> first | rfl | omega

theorem decodeRune_three (p0 : Nat) (t : Bytes) (h0 : 0xE0 ≤ p0) (h1 : p0 < 0xF0) :
    decodeRune (p0 :: t) =
      match t with
      | b1 :: b2 :: _ =>
        if (if p0 = 0xE0 then 0xA0 else 0x80) ≤ b1 ∧ b1 ≤ (if p0 = 0xED then 0x9F else 0xBF) ∧
            0x80 ≤ b2 ∧ b2 ≤ 0xBF then
          ((p0 % 16) * 4096 + (b1 % 64) * 64 + b2 % 64, 3)
        else (RuneError, 1)
      | _ => (RuneError, 1) := by
  have hf := first_three p0 h0 h1
  by_cases e0 : p0 = 0xE0
  · rw [if_pos e0] at hf
    rcases t with _ | ⟨b1, _ | ⟨b2, t2⟩⟩
    · simp [decodeRune, hf]
    · simp [decodeRune, hf]
    · simp only [decodeRune, hf, acceptRanges, if_pos e0]
      norm_num
      split_ifs <;> first | rfl | omega
  · rw [if_neg e0] at hf
    by_cases e1 : p0 = 0xED
    · rw [if_pos e1] at hf
      rcases t with _ | ⟨b1, _ | ⟨b2, t2⟩⟩
      · simp [decodeRune, hf]
      · simp [decodeRune, hf]
      · simp only [decodeRune, hf, acceptRanges, if_neg e0, if_pos e1]
        norm_num
        split_ifs <;> first | rfl | omega
    · rw [if_neg e1] at hf
      rcases t with _ | ⟨b1, _ | ⟨b2, t2⟩⟩
      · simp [decodeRune, hf]
      · simp [decodeRune, hf]
      · simp only [decodeRune, hf, acceptRanges, if_neg e0, if_neg e1]
        norm_num
        split_ifs <;> first | rfl | omega

theorem decodeRune_four (p0 : Nat) (t : Bytes) (h0 : 0xF0 ≤ p0) (h1 : p0 < 0xF5) :
    decodeRune (p0 :: t) =
      match t with
      | b1 :: b2 :: b3 :: _ =>
        if (if p0 = 0xF0 then 0x90 else 0x80) ≤ b1 ∧ b1 ≤ (if p0 = 0xF4 then 0x8F else 0xBF) ∧
            0x80 ≤ b2 ∧ b2 ≤ 0xBF ∧ 0x80 ≤ b3 ∧ b3 ≤ 0xBF then
          ((p0 % 8) * 262144 + (b1 % 64) * 4096 + (b2 % 64) * 64 + b3 % 64, 4)
        else (RuneError, 1)
      | _ => (RuneError, 1) := by
  have hf := first_four p0 h0 h1
  by_cases e0 : p0 = 0xF0
  · rw [if_pos e0] at hf
    rcases t with _ | ⟨b1, _ | ⟨b2, _ | ⟨b3, t3⟩⟩⟩
    · simp [decodeRune, hf]
    · simp [decodeRune, hf]
    · simp [decodeRune, hf]
    · simp only [decodeRune, hf, acceptRanges, if_pos e0]
      norm_num
      split_ifs <;> first | rfl | omega
  · rw [if_neg e0] at hf
    by_cases e1 : p0 = 0xF4
    · rw [if_pos e1] at hf
      rcases t with _ | ⟨b1, _ | ⟨b2, _ | ⟨b3, t3⟩⟩⟩
      · simp [decodeRune, hf]
      · simp [decodeRune, hf]
      · simp [decodeRune, hf]
      · simp only [decodeRune, hf, acceptRanges, if_neg e0, if_pos e1]
        norm_num
        split_ifs <;> first | rfl | omega
    · rw [if_neg e1] at hf
      rcases t with _ | ⟨b1, _ | ⟨b2, _ | ⟨b3, t3⟩⟩⟩
      · simp [decodeRune, hf]
      · simp [decodeRune, hf]
      · simp [decodeRune, hf]
      · simp only [decodeRune, hf, acceptRanges, if_neg e0, if_neg e1]
        norm_num
        split_ifs <;> first | rfl | omega

/-- The five outcomes of decoding a non-empty input. -/
theorem decodeRune_cases (p0 : Nat) (t : Bytes) :
    (p0 < 0x80 ∧ decodeRune (p0 :: t) = (p0, 1)) ∨
    (0x80 ≤ p0 ∧ decodeRune (p0 :: t) = (RuneError, 1)) ∨
    (∃ b1 t1, t = b1 :: t1 ∧ 0xC2 ≤ p0 ∧ p0 < 0xE0 ∧ 0x80 ≤ b1 ∧ b1 ≤ 0xBF ∧
        decodeRune (p0 :: t) = ((p0 % 32) * 64 + b1 % 64, 2)) ∨
    (∃ b1 b2 t2, t = b1 :: b2 :: t2 ∧ 0xE0 ≤ p0 ∧ p0 < 0xF0 ∧
        (if p0 = 0xE0 then 0xA0 else 0x80) ≤ b1 ∧ b1 ≤ (if p0 = 0xED then 0x9F else 0xBF) ∧
        0x80 ≤ b2 ∧ b2 ≤ 0xBF ∧
        decodeRune (p0 :: t) = ((p0 % 16) * 4096 + (b1 % 64) * 64 + b2 % 64, 3)) ∨
    (∃ b1 b2 b3 t3, t = b1 :: b2 :: b3 :: t3 ∧ 0xF0 ≤ p0 ∧ p0 < 0xF5 ∧
        (if p0 = 0xF0 then 0x90 else 0x80) ≤ b1 ∧ b1 ≤ (if p0 = 0xF4 then 0x8F else 0xBF) ∧
        0x80 ≤ b2 ∧ b2 ≤ 0xBF ∧ 0x80 ≤ b3 ∧ b3 ≤ 0xBF ∧
        decodeRune (p0 :: t) =
          ((p0 % 8) * 262144 + (b1 % 64) * 4096 + (b2 % 64) * 64 + b3 % 64, 4)) := by
  by_cases a0 : p0 < 0x80
  · exact Or.inl ⟨a0, decodeRune_ascii p0 t a0⟩
  by_cases a1 : p0 < 0xC2
  · exact Or.inr (Or.inl ⟨by omega, decodeRune_invalid p0 t (Or.inl ⟨by omega, a1⟩)⟩)
  by_cases a2 : p0 < 0xE0
  · rw [decodeRune_two p0 t (by omega) a2]
    rcases t with _ | ⟨b1, t1⟩
    · exact Or.inr (Or.inl ⟨by omega, rfl⟩)
    · by_cases c : 0x80 ≤ b1 ∧ b1 ≤ 0xBF
      · exact Or.inr (Or.inr (Or.inl ⟨b1, t1, rfl, by omega, a2, c.1, c.2, by simp [c]⟩))
      · exact Or.inr (Or.inl ⟨by omega, by simp only [if_neg c]⟩)
  by_cases a3 : p0 < 0xF0
  · rw [decodeRune_three p0 t (by omega) a3]
    rcases t with _ | ⟨b1, _ | ⟨b2, t2⟩⟩
    · exact Or.inr (Or.inl ⟨by omega, rfl⟩)
    · exact Or.inr (Or.inl ⟨by omega, rfl⟩)
    · by_cases c : (if p0 = 0xE0 then 0xA0 else 0x80) ≤ b1 ∧
          b1 ≤ (if p0 = 0xED then 0x9F else 0xBF) ∧ 0x80 ≤ b2 ∧ b2 ≤ 0xBF
      · exact Or.inr (Or.inr (Or.inr (Or.inl
          ⟨b1, b2, t2, rfl, by omega, a3, c.1, c.2.1, c.2.2.1, c.2.2.2, by simp only [if_pos c]⟩)))
      · exact Or.inr (Or.inl ⟨by omega, by simp only [if_neg c]⟩)
  by_cases a4 : p0 < 0xF5
  · rw [decodeRune_four p0 t (by omega) a4]
    rcases t with _ | ⟨b1, _ | ⟨b2, _ | ⟨b3, t3⟩⟩⟩
    · exact Or.inr (Or.inl ⟨by omega, rfl⟩)
    · exact Or.inr (Or.inl ⟨by omega, rfl⟩)
    · exact Or.inr (Or.inl ⟨by omega, rfl⟩)
    · by_cases c : (if p0 = 0xF0 then 0x90 else 0x80) ≤ b1 ∧
          b1 ≤ (if p0 = 0xF4 then 0x8F else 0xBF) ∧ 0x80 ≤ b2 ∧ b2 ≤ 0xBF ∧ 0x80 ≤ b3 ∧ b3 ≤ 0xBF
      · exact Or.inr (Or.inr (Or.inr (Or.inr
          ⟨b1, b2, b3, t3, rfl, by omega, a4, c.1, c.2.1, c.2.2.1, c.2.2.2.1, c.2.2.2.2.1,
            c.2.2.2.2.2, by simp only [if_pos c]⟩)))
      · exact Or.inr (Or.inl ⟨by omega, by simp only [if_neg c]⟩)
  · exact Or.inr (Or.inl ⟨by omega, decodeRune_invalid p0 t (Or.inr (by omega))⟩)

/-- Encoding the rune of a multi-byte decoding gives back the bytes decoded. -/
theorem encodeRune_decodeRune (l : Bytes) (h : 2 ≤ (decodeRune l).2) :
    encodeRune (decodeRune l).1 = l.take (decodeRune l).2 := by
  rcases l with _ | ⟨p0, t⟩
  · simp [decodeRune] at h
  rcases decodeRune_cases p0 t with ⟨_, e⟩ | ⟨_, e⟩ | ⟨b1, t1, rfl, h0, h1, h2, h3, e⟩ |
      ⟨b1, b2, t2, rfl, h0, h1, h2, h3, h4, h5, e⟩ |
      ⟨b1, b2, b3, t3, rfl, h0, h1, h2, h3, h4, h5, h6, h7, e⟩
  · rw [e] at h; simp at h
  · rw [e] at h; simp at h
  · rw [e]
    simp only [encodeRune, List.take_succ_cons, List.take_zero]
    rw [if_neg (by omega), if_pos (by omega)]
    congr 1 <;> [omega; (congr 1; omega)]
  · rw [e]
    simp only [encodeRune, List.take_succ_cons, List.take_zero]
    split_ifs at h2 h3 ⊢ <;> first
      | omega
      | (congr 1 <;> [omega; (congr 1 <;> [omega; (congr 1; omega)])])
  · rw [e]
    simp only [encodeRune, List.take_succ_cons, List.take_zero]
    split_ifs at h2 h3 ⊢ <;> first
      | omega
      | (congr 1 <;> [omega; (congr 1 <;> [omega; (congr 1 <;> [omega; (congr 1; omega)])])])

/-! ## String literals: writing and reading back -/

theorem appendStringLoop_skip (k : Nat) (s : GoString) :
    appendStringLoop k s = appendStringLoop 0 (s.drop k) := by
  induction k generalizing s with
  | zero => simp
  | succ k ih => cases s with
    | nil => simp [appendStringLoop]
    | cons b rest => simp [appendStringLoop, ih]

theorem coerceLoop_skip (k : Nat) (s : GoString) :
    coerceLoop k s = coerceLoop 0 (s.drop k) := by
  induction k generalizing s with
  | zero => simp
  | succ k ih => cases s with
    | nil => simp [coerceLoop]
    | cons b rest => simp [coerceLoop, ih]

theorem unquoteLoop_skip (k : Nat) (s : Bytes) :
    unquoteLoop k s = unquoteLoop 0 (s.drop k) := by
  induction k generalizing s with
  | zero => simp
  | succ k ih => cases s with
    | nil => simp [unquoteLoop]
    | cons b rest => simp [unquoteLoop, ih]

theorem validLoop_skip (k : Nat) (s : Bytes) :
    validLoop k s = validLoop 0 (s.drop k) := by
  induction k generalizing s with
  | zero => simp
  | succ k ih => cases s with
    | nil => simp [validLoop]
    | cons b rest => simp [validLoop, ih]

/-- A multi-byte decoding depends only on the bytes it consumes. -/
theorem decodeRune_take_append (l y : Bytes) (h : 2 ≤ (decodeRune l).2) :
    decodeRune (l.take (decodeRune l).2 ++ y) = decodeRune l := by
  rcases l with _ | ⟨p0, t⟩
  · simp [decodeRune] at h
  rcases decodeRune_cases p0 t with ⟨_, e⟩ | ⟨_, e⟩ | ⟨b1, t1, rfl, h0, h1, h2, h3, e⟩ |
      ⟨b1, b2, t2, rfl, h0, h1, h2, h3, h4, h5, e⟩ |
      ⟨b1, b2, b3, t3, rfl, h0, h1, h2, h3, h4, h5, h6, h7, e⟩
  · rw [e] at h; simp at h
  · rw [e] at h; simp at h
  · rw [e]
    simp only [List.take_succ_cons, List.take_zero, List.cons_append, List.nil_append]
    rw [decodeRune_two p0 _ h0 h1]
    simp [h2, h3]
  · rw [e]
    simp only [List.take_succ_cons, List.take_zero, List.cons_append, List.nil_append]
    rw [decodeRune_three p0 _ h0 h1]
    simp only [h2, h3, h4, h5, and_self, if_true]
  · rw [e]
    simp only [List.take_succ_cons, List.take_zero, List.cons_append, List.nil_append]
    rw [decodeRune_four p0 _ h0 h1]
    simp only [h2, h3, h4, h5, h6, h7, and_self, if_true]

/-- The width of a decoding is at least one and at most the input length;
a byte of 0x80 or more decodes with width one only as an error. -/
theorem decodeRune_width (p0 : Nat) (t : Bytes) :
    1 ≤ (decodeRune (p0 :: t)).2 ∧ (decodeRune (p0 :: t)).2 ≤ t.length + 1 ∧
    (0x80 ≤ p0 → (decodeRune (p0 :: t)).2 = 1 → (decodeRune (p0 :: t)).1 = RuneError) := by
  rcases decodeRune_cases p0 t with ⟨_, e⟩ | ⟨_, e⟩ | ⟨b1, t1, rfl, h0, h1, h2, h3, e⟩ |
      ⟨b1, b2, t2, rfl, h0, h1, h2, h3, h4, h5, e⟩ |
      ⟨b1, b2, b3, t3, rfl, h0, h1, h2, h3, h4, h5, h6, h7, e⟩ <;>
    (rw [e]; simp; try omega)

theorem hexVal_hexDigit (n : Nat) (h : n < 16) : hexVal (hexDigit n) = some n := by
  unfold hexDigit hexVal
  split_ifs <;> first | omega | (simp; done) | (simp; omega)

theorem getu4_hex (a b c d : Nat) (x : Bytes) (ha : a < 16) (hb : b < 16) (hc : c < 16)
    (hd : d < 16) :
    getu4 (0x5C :: 0x75 :: hexDigit a :: hexDigit b :: hexDigit c :: hexDigit d :: x) =
      some (((a * 16 + b) * 16 + c) * 16 + d) := by
  simp [getu4, hexVal_hexDigit, ha, hb, hc, hd]

/-- Reading back an ASCII byte written without escaping. -/
theorem unquoteLoop_safe (b : Nat) (x : Bytes) (hs : htmlSafeSet b = true) :
    unquoteLoop 0 (b :: x) = emit [b] (unquoteLoop 0 x) := by
  simp only [htmlSafeSet, Bool.and_eq_true, decide_eq_true_eq, bne_iff_ne, ne_eq] at hs
  obtain ⟨⟨⟨⟨⟨⟨h1, h2⟩, h3⟩, h4⟩, h5⟩, h6⟩, h7⟩ := hs
  simp only [unquoteLoop]
  rw [if_neg h3, if_neg h7, if_neg (by omega), if_pos h2]

/-- Reading back the escape of an ASCII byte. -/
theorem unquoteLoop_escape (b : Nat) (x : Bytes) (hb : b < 0x80) :
    unquoteLoop 0 (escapeByte b ++ x) = emit [b] (unquoteLoop 0 x) := by
  unfold escapeByte
  split_ifs with h1 h2 h3 h4 h5 h6
  · rcases h1 with rfl | rfl <;> simp [unquoteLoop]
  · subst h2; simp [unquoteLoop]
  · subst h3; simp [unquoteLoop]
  · subst h4; simp [unquoteLoop]
  · subst h5; simp [unquoteLoop]
  · subst h6; simp [unquoteLoop]
  · have hg := getu4_hex 0 0 (b / 16) (b % 16) x (by omega) (by omega) (by omega) (by omega)
    have h0 : hexDigit 0 = 0x30 := rfl
    rw [h0] at hg
    have hv : ((0 * 16 + 0) * 16 + b / 16) * 16 + b % 16 = b := by omega
    rw [hv] at hg
    simp only [List.cons_append, List.nil_append]
    rw [unquoteLoop]
    simp only [hg]
    have hsur : isSurrogate b = false := by
      simp [isSurrogate]; omega
    have henc : encodeRune b = [b] := by
      simp [encodeRune]; omega
    simp [hsur, henc, unquoteLoop]

/-- Reading back a `\uXXXX` escape of a rune that is not a surrogate. -/
theorem unquoteLoop_u4 (h1 h2 h3 h4 rr : Nat) (y : Bytes)
    (hg : getu4 (0x5C :: 0x75 :: h1 :: h2 :: h3 :: h4 :: y) = some rr)
    (hs : isSurrogate rr = false) :
    unquoteLoop 0 (0x5C :: 0x75 :: h1 :: h2 :: h3 :: h4 :: y) =
      emit (encodeRune rr) (unquoteLoop 0 y) := by
  rw [unquoteLoop]
  simp only [hg]
  simp [hs, unquoteLoop]

/-- Reading back a multi-byte rune copied without escaping. -/
theorem unquoteLoop_copy (b : Nat) (rest y : Bytes) (hb : ¬ b < 0x80)
    (h2 : 2 ≤ (decodeRune (b :: rest)).2) :
    unquoteLoop 0 ((b :: rest).take (decodeRune (b :: rest)).2 ++ y) =
      emit (encodeRune (decodeRune (b :: rest)).1) (unquoteLoop 0 y) := by
  have hw := decodeRune_width b rest
  have hd := decodeRune_take_append (b :: rest) y h2
  obtain ⟨n, hn⟩ : ∃ n, (decodeRune (b :: rest)).2 = n + 1 := ⟨_, (Nat.sub_add_cancel hw.1).symm⟩
  rw [hn] at hd ⊢
  simp only [List.take_succ_cons, List.cons_append] at hd ⊢
  simp only [unquoteLoop]
  rw [if_neg (by omega), if_neg (by omega), if_neg (by omega), if_neg hb]
  simp only [hd, hn, Nat.add_sub_cancel]
  rw [unquoteLoop_skip]
  have hlen : (List.take n rest).length = n := by
    rw [List.length_take]; omega
  rw [List.drop_append_eq_append_drop, hlen]
  simp [List.drop_eq_nil_of_le, hlen]

/-- Reading back a string written by `appendString`: the bytes between the
quotes decode to the string coerced to valid UTF-8, and the input after the
closing quote is left. -/
theorem unquoteLoop_appendStringLoop (s : GoString) (x : Bytes) :
    unquoteLoop 0 (appendStringLoop 0 s ++ 0x22 :: x) = some (coerceLoop 0 s, x) := by
  suffices H : ∀ (n : Nat) (s : GoString), s.length ≤ n →
      unquoteLoop 0 (appendStringLoop 0 s ++ 0x22 :: x) = some (coerceLoop 0 s, x) from
    H _ s le_rfl
  intro n
  induction n with
  | zero =>
    intro s hs
    have : s = [] := List.length_eq_zero.mp (by omega)
    subst this
    simp [appendStringLoop, unquoteLoop, coerceLoop]
  | succ n ih =>
    intro s hs
    rcases s with _ | ⟨b, rest⟩
    · simp [appendStringLoop, unquoteLoop, coerceLoop]
    · have hlen : ∀ k, (rest.drop k).length ≤ n := by
        intro k; rw [List.length_drop]; simp at hs; omega
      have ih0 := ih (rest.drop 0) (hlen 0)
      simp only [List.drop_zero] at ih0
      by_cases hb : b < 0x80
      · simp only [appendStringLoop, coerceLoop, if_pos hb]
        by_cases hs : htmlSafeSet b = true
        · simp only [if_pos hs, List.cons_append, List.nil_append]
          rw [unquoteLoop_safe b _ hs, ih0]; rfl
        · simp only [if_neg hs, List.append_assoc]
          rw [unquoteLoop_escape b _ hb, ih0]; rfl
      · have hw := decodeRune_width b rest
        simp only [appendStringLoop, coerceLoop, if_neg hb]
        by_cases hinv : (decodeRune (b :: rest)).1 = RuneError ∧ (decodeRune (b :: rest)).2 = 1
        · rw [if_pos hinv]
          simp only [hinv.1, hinv.2, List.cons_append, List.nil_append, Nat.sub_self]
          have hg : getu4 (0x5C :: 0x75 :: 0x66 :: 0x66 :: 0x66 :: 0x64 ::
              (appendStringLoop 0 rest ++ 0x22 :: x)) = some 0xFFFD := by
            simp [getu4, hexVal]
          rw [unquoteLoop_u4 _ _ _ _ _ _ hg (by simp [isSurrogate]), ih0]
          rfl
        · rw [if_neg hinv]
          have h2 : 2 ≤ (decodeRune (b :: rest)).2 := by
            by_contra hc
            have h1 : (decodeRune (b :: rest)).2 = 1 := by omega
            exact hinv ⟨hw.2.2 (by omega) h1, h1⟩
          have ihd := ih (rest.drop ((decodeRune (b :: rest)).2 - 1))
            (hlen ((decodeRune (b :: rest)).2 - 1))
          rw [appendStringLoop_skip, coerceLoop_skip]
          by_cases h28 : (decodeRune (b :: rest)).1 = 0x2028 ∨ (decodeRune (b :: rest)).1 = 0x2029
          · rw [if_pos h28]
            simp only [List.cons_append, List.nil_append]
            have hg : getu4 (0x5C :: 0x75 :: 0x32 :: 0x30 :: 0x32 ::
                hexDigit ((decodeRune (b :: rest)).1 % 16) ::
                (appendStringLoop 0 (rest.drop ((decodeRune (b :: rest)).2 - 1)) ++ 0x22 :: x)) =
                some (decodeRune (b :: rest)).1 := by
              rcases h28 with e | e <;> rw [e] <;> simp [getu4, hexVal, hexDigit]
            have hsur : isSurrogate (decodeRune (b :: rest)).1 = false := by
              rcases h28 with e | e <;> rw [e] <;> simp [isSurrogate]
            rw [unquoteLoop_u4 _ _ _ _ _ _ hg hsur, ihd]
            rfl
          · rw [if_neg h28]
            rw [List.append_assoc, unquoteLoop_copy b rest _ hb h2, ihd]; rfl

/-! ## The codec of `Agent`: decoding what was encoded -/

/-- Coercion leaves valid UTF-8 unchanged. -/
theorem coerceLoop_valid (s : GoString) (hv : validLoop 0 s = true) : coerceLoop 0 s = s := by
  suffices H : ∀ (n : Nat) (s : GoString), s.length ≤ n → validLoop 0 s = true →
      coerceLoop 0 s = s from H _ s le_rfl hv
  intro n
  induction n with
  | zero =>
    intro s hs _
    have : s = [] := List.length_eq_zero.mp (by omega)
    subst this
    rfl
  | succ n ih =>
    intro s hs hv
    rcases s with _ | ⟨b, rest⟩
    · rfl
    · have hlen : ∀ k, (rest.drop k).length ≤ n := by
        intro k; rw [List.length_drop]; simp at hs; omega
      by_cases hb : b < 0x80
      · simp only [validLoop, if_pos hb] at hv
        simp only [coerceLoop, if_pos hb]
        have := ih (rest.drop 0) (hlen 0)
        simp only [List.drop_zero] at this
        rw [this hv]
      · simp only [validLoop, if_neg hb] at hv
        simp only [coerceLoop, if_neg hb]
        have hw := decodeRune_width b rest
        by_cases h1 : (decodeRune (b :: rest)).2 = 1
        · simp [h1] at hv
        · rw [if_neg h1, validLoop_skip] at hv
          rw [coerceLoop_skip, ih _ (hlen _) hv, encodeRune_decodeRune _ (by omega)]
          obtain ⟨k, hk⟩ : ∃ k, (decodeRune (b :: rest)).2 = k + 1 :=
            ⟨_, (Nat.sub_add_cancel hw.1).symm⟩
          rw [hk]
          simp

theorem coerceUTF8_valid (s : GoString) (hv : validUTF8 s = true) : coerceUTF8 s = s :=
  coerceLoop_valid s hv

theorem Agent.coerce_valid (a : Agent) (hv : a.valid = true) : a.coerce = a := by
  simp only [Agent.valid, Bool.and_eq_true] at hv
  obtain ⟨⟨⟨⟨⟨⟨⟨⟨h1, h2⟩, h3⟩, h4⟩, h5⟩, h6⟩, h7⟩, h8⟩, h9⟩ := hv
  simp [Agent.coerce, coerceUTF8_valid, h1, h2, h3, h4, h5, h6, h7, h8, h9]

/-- Reading back a value written by `appendString`. -/
theorem unquoteLoop_appendString (s : GoString) (x : Bytes) :
    ∃ body, appendString s ++ x = 0x22 :: body ∧
      unquoteLoop 0 body = some (coerceUTF8 s, x) := by
  refine ⟨appendStringLoop 0 s ++ 0x22 :: x, ?_, unquoteLoop_appendStringLoop s x⟩
  simp [appendString]

theorem skipSpace_cons (c : Nat) (x : Bytes) (h : isSpace c = false) :
    skipSpace (c :: x) = c :: x := by
  simp [skipSpace, h]

/-- Reading a value written by `appendString`. -/
theorem parseValue_appendString (fuel depth : Nat) (s : GoString) (x : Bytes) :
    parseValue (fuel + 1) depth (appendString s ++ x) = some (JVal.str (coerceUTF8 s), x) := by
  obtain ⟨body, hb, hu⟩ := unquoteLoop_appendString s x
  rw [hb, parseValue, skipSpace_cons _ _ (by decide)]
  simp [hu]

/-- The field names need no escaping and are valid UTF-8. -/
theorem tag_plain (f : Field) :
    appendStringLoop 0 f.tag = f.tag ∧ coerceLoop 0 f.tag = f.tag := by
  cases f <;> decide

/-- Reading back a quoted field name. -/
theorem unquoteLoop_tag (f : Field) (x : Bytes) :
    unquoteLoop 0 (f.tag ++ 0x22 :: x) = some (f.tag, x) := by
  have h := unquoteLoop_appendStringLoop f.tag x
  rwa [(tag_plain f).1, (tag_plain f).2] at h

/-- Reading the members written by the struct encoder, from the quote of the
first name to the closing brace. -/
theorem parseMembers_encodeFields (a : Agent) (fs : List Field) :
    ∀ (f0 : Field) (fuel depth : Nat) (x : Bytes), fs.length + 2 ≤ fuel →
      parseMembers fuel depth
        (0x22 :: (f0.tag ++ 0x22 :: 0x3A ::
          (appendString (a.get f0) ++ (encodeFields a 0x2C fs ++ x)))) =
        some (membersOf a (f0 :: fs), x) := by
  induction fs with
  | nil =>
    intro f0 fuel depth x hf
    obtain ⟨k, rfl⟩ : ∃ k, fuel = k + 2 := ⟨fuel - 2, by omega⟩
    rw [parseMembers]
    simp only [if_true, unquoteLoop_tag]
    rw [skipSpace_cons _ _ (by decide)]
    simp only [if_true, parseValue_appendString]
    simp [encodeFields, skipSpace_cons, isSpace, membersOf]
  | cons f1 fs ih =>
    intro f0 fuel depth x hf
    obtain ⟨k, rfl⟩ : ∃ k, fuel = k + 2 := ⟨fuel - 2, by simp at hf; omega⟩
    rw [parseMembers]
    simp only [if_true, unquoteLoop_tag]
    rw [skipSpace_cons _ _ (by decide)]
    simp only [if_true, parseValue_appendString]
    have hnext : encodeFields a 0x2C (f1 :: fs) ++ x =
        0x2C :: 0x22 :: (f1.tag ++ 0x22 :: 0x3A ::
          (appendString (a.get f1) ++ (encodeFields a 0x2C fs ++ x))) := by
      simp [encodeFields]
    rw [hnext, skipSpace_cons _ _ (by decide)]
    simp only [if_true, skipSpace_cons _ _ (show isSpace 0x22 = false by decide)]
    rw [ih f1 (k + 1) depth x (by simp at hf; omega)]
    simp [membersOf]

theorem encodeFields_length (a : Agent) (sep : Nat) (fs : List Field) :
    fs.length + 1 ≤ (encodeFields a sep fs).length := by
  induction fs generalizing sep with
  | nil => simp only [encodeFields]; split_ifs <;> simp
  | cons f fs ih =>
    have := ih 0x2C
    simp only [encodeFields, List.length_append, List.length_cons]
    omega

/-- The syntax phase on the output of `json.Marshal`, for any sufficient
bound on the nesting of calls. -/
theorem parseValue_encodeFields (a : Agent) (fuel : Nat) (hf : 10 ≤ fuel) :
    parseValue (fuel + 1) 0 (encodeFields a 0x7B Field.all) =
      some (JVal.obj (membersOf a Field.all), []) := by
  have hdata : encodeFields a 0x7B Field.all =
      0x7B :: 0x22 :: (Field.ID.tag ++ 0x22 :: 0x3A ::
        (appendString (a.get Field.ID) ++ (encodeFields a 0x2C Field.all.tail ++ []))) := by
    simp [encodeFields, Field.all]
  have hm := parseMembers_encodeFields a Field.all.tail Field.ID fuel 1 []
    (by simp only [Field.all, List.tail_cons, List.length_cons, List.length_nil]; omega)
  rw [hdata, parseValue, skipSpace_cons _ _ (by decide)]
  simp only [if_true]
  rw [if_neg (by decide), skipSpace_cons _ _ (by decide)]
  simp only [if_neg (show ¬ (0x22 : Nat) = 0x7D by decide), zero_add, hm]
  rfl

/-- The syntax phase on the output of `json.Marshal`: one object with the
nine members in field order. -/
theorem jsonParse_encodeFields (a : Agent) :
    jsonParse (encodeFields a 0x7B Field.all) = some (JVal.obj (membersOf a Field.all)) := by
  have hlen : 10 ≤ (encodeFields a 0x7B Field.all).length :=
    encodeFields_length a 0x7B Field.all
  unfold jsonParse
  rw [parseValue_encodeFields a _ hlen]
  rfl

theorem lookupField_tag (f : Field) : lookupField f.tag = some f := by
  cases f <;> decide

/-- Decoding the output of `json.Marshal` yields the agent with every field
coerced to valid UTF-8. -/
theorem jsonUnmarshal_encodeFields (a : Agent) :
    jsonUnmarshal (encodeFields a 0x7B Field.all) = .ok a.coerce := by
  unfold jsonUnmarshal
  rw [jsonParse_encodeFields]
  simp [membersOf, Field.all, storeMember, lookupField_tag, Agent.set, Agent.get, Agent.zero,
    Agent.coerce]

/-! ## The world state: reads after writes -/

theorem keyLt_total {a b : GoString} (h : a ≠ b) : keyLt a b = true ∨ keyLt b a = true := by
  induction a generalizing b with
  | nil =>
    cases b with
    | nil => exact absurd rfl h
    | cons y ys => left; rfl
  | cons x xs ih =>
    cases b with
    | nil => right; rfl
    | cons y ys =>
      simp only [keyLt]
      by_cases h1 : x < y
      · left; rw [if_pos h1]
      · by_cases h2 : y < x
        · right; rw [if_pos h2]
        · have hxy : x = y := by omega
          subst hxy
          simp only [if_neg h1]
          exact ih (fun e => h (by rw [e]))

theorem lookup_append (l1 l2 : List (GoString × Bytes)) (k : GoString) :
    (l1 ++ l2).lookup k = match l1.lookup k with
      | some v => some v
      | none => l2.lookup k := by
  induction l1 with
  | nil => rfl
  | cons e l ih =>
    obtain ⟨a, v⟩ := e
    simp only [List.cons_append, List.lookup_cons]
    cases k == a <;> simp [ih]

theorem lookup_filter (l : List (GoString × Bytes)) (p : GoString → Bool) (k : GoString) :
    (l.filter (fun e => p e.1)).lookup k = if p k then l.lookup k else none := by
  induction l with
  | nil => simp
  | cons e l ih =>
    obtain ⟨a, v⟩ := e
    simp only [List.filter_cons]
    by_cases hka : k = a
    · subst hka
      by_cases hp : p k = true
      · simp [hp, List.lookup_cons]
      · simp only [hp, if_false] at ih ⊢
        exact ih
    · have hbeq : (k == a) = false := by simpa using hka
      by_cases hp : p a = true
      · simp only [hp, if_true, List.lookup_cons, hbeq]
        exact ih
      · simp only [hp, if_false, List.lookup_cons, hbeq]
        exact ih

theorem Store.get_put_self (s : Store) (k : GoString) (v : Bytes) :
    (s.put k v).get k = some v := by
  simp [Store.get, Store.put, lookup_append, lookup_filter (p := fun x => keyLt x k),
    keyLt_irrefl, List.lookup_cons]

theorem Store.get_put_of_ne (s : Store) (k k' : GoString) (v : Bytes) (h : k' ≠ k) :
    (s.put k v).get k' = s.get k' := by
  have hbeq : (k' == k) = false := by simpa using h
  simp only [Store.get, Store.put, lookup_append, lookup_filter (p := fun x => keyLt x k),
    lookup_filter (p := fun x => keyLt k x), List.lookup_cons, hbeq]
  rcases keyLt_total h with h1 | h1
  · simp only [h1, if_true]
    cases s.entries.lookup k' with
    | none => simp
    | some v => rfl
  · cases h2 : keyLt k' k <;> simp [h1]
    cases s.entries.lookup k' <;> rfl

theorem Store.get_del_self (s : Store) (k : GoString) : (s.del k).get k = none := by
  simp [Store.get, Store.del, lookup_filter (p := fun x => x != k)]

theorem Store.get_del_of_ne (s : Store) (k k' : GoString) (h : k' ≠ k) :
    (s.del k).get k' = s.get k' := by
  simp [Store.get, Store.del, lookup_filter (p := fun x => x != k), h]

theorem Store.range_all (s : Store) : s.range [] [] = s.entries := by
  simp [Store.range]

/-! ## The operations, step by step -/

theorem agentExists_eq (f : Faults) (id : GoString) (w : World) (hget : f.getState id = none) :
    agentExists f id w = (.ok (w.store.get id).isSome, w.log (.getState id)) := by
  simp [agentExists, GetState, hget]

theorem Createagent_absent (f : Faults)
    (id did name address represents agentType roles iam : GoString) (w : World)
    (habs : w.store.get id = none) (hget : f.getState id = none)
    (hput : ∀ v, f.putState id v = none) :
    Createagent f id did name address represents agentType roles iam w =
      (.ok (),
        { store := w.store.put id
            (encodeFields (newAgent id did name address represents agentType roles iam)
              0x7B Field.all),
          trace := w.trace ++ [.getState id,
            .putState id (encodeFields
              (newAgent id did name address represents agentType roles iam) 0x7B Field.all)] }) := by
  simp [Createagent, agentExists_eq f id w hget, habs, jsonMarshal, PutState, hput, World.log,
    newAgent]

theorem Createagent_present (f : Faults)
    (id did name address represents agentType roles iam : GoString) (w : World) (v : Bytes)
    (hpres : w.store.get id = some v) (hget : f.getState id = none) :
    Createagent f id did name address represents agentType roles iam w =
      (.error (.alreadyExists id), w.log (.getState id)) := by
  simp [Createagent, agentExists_eq f id w hget, hpres]

theorem Readagent_absent (f : Faults) (id : GoString) (w : World)
    (habs : w.store.get id = none) (hget : f.getState id = none) :
    Readagent f id w = (.error (.doesNotExist id), w.log (.getState id)) := by
  simp [Readagent, GetState, hget, habs]

theorem Readagent_present (f : Faults) (id : GoString) (w : World) (v : Bytes)
    (hpres : w.store.get id = some v) (hget : f.getState id = none) :
    Readagent f id w = (jsonUnmarshal v, w.log (.getState id)) := by
  simp only [Readagent, GetState, hget, hpres]
  cases jsonUnmarshal v <;> rfl

theorem Updateagent_absent (f : Faults)
    (id did name address represents agentType roles iam status : GoString) (w : World)
    (habs : w.store.get id = none) (hget : f.getState id = none) :
    Updateagent f id did name address represents agentType roles iam status w =
      (.error (.doesNotExist id), w.log (.getState id)) := by
  simp [Updateagent, agentExists_eq f id w hget, habs]

theorem Updateagent_present (f : Faults)
    (id did name address represents agentType roles iam status : GoString) (w : World)
    (v : Bytes) (hpres : w.store.get id = some v) (hget : f.getState id = none)
    (hput : ∀ v, f.putState id v = none) :
    Updateagent f id did name address represents agentType roles iam status w =
      (.ok (),
        { store := w.store.put id
            (encodeFields ⟨id, did, name, address, represents, agentType, roles, iam, status⟩
              0x7B Field.all),
          trace := w.trace ++ [.getState id,
            .putState id (encodeFields
              ⟨id, did, name, address, represents, agentType, roles, iam, status⟩
              0x7B Field.all)] }) := by
  simp [Updateagent, agentExists_eq f id w hget, hpres, jsonMarshal, PutState, hput, World.log]

theorem Deleteagent_absent (f : Faults) (id : GoString) (w : World)
    (habs : w.store.get id = none) (hget : f.getState id = none) :
    Deleteagent f id w = (.error (.doesNotExist id), w.log (.getState id)) := by
  simp [Deleteagent, agentExists_eq f id w hget, habs]

theorem Deleteagent_present (f : Faults) (id : GoString) (w : World) (v : Bytes)
    (hpres : w.store.get id = some v) (hget : f.getState id = none)
    (hdel : f.delState id = none) :
    Deleteagent f id w =
      (.ok (), { store := w.store.del id, trace := w.trace ++ [.getState id, .delState id] }) := by
  simp [Deleteagent, agentExists_eq f id w hget, hpres, DelState, hdel, World.log]

/-- An error of `json.Unmarshal` is an error of `encoding/json`. -/
theorem jsonUnmarshal_error (data : Bytes) (e : Error) (h : jsonUnmarshal data = .error e) :
    ∃ je, e = .json je := by
  unfold jsonUnmarshal at h
  split at h
  · cases h; exact ⟨_, rfl⟩
  · split at h
    · split at h
      · cases h
      · cases h; exact ⟨_, rfl⟩
    · cases h
    · cases h; exact ⟨_, rfl⟩

/-! ## The decoder's bound on nested calls is never exhausted -/

theorem skipSpace_length (s : Bytes) : (skipSpace s).length ≤ s.length := by
  induction s with
  | nil => simp [skipSpace]
  | cons c rest ih =>
    simp only [skipSpace]
    split_ifs
    · simp only [List.length_cons]; omega
    · exact le_rfl

theorem emit_eq_some {out : Bytes} {x : Option (GoString × Bytes)} {a : GoString} {r : Bytes}
    (h : emit out x = some (a, r)) : ∃ b, x = some (b, r) := by
  cases x with
  | none => simp [emit] at h
  | some p =>
    simp only [emit, Option.map_some', Option.some.injEq, Prod.mk.injEq] at h
    exact ⟨p.1, by rw [← h.2]⟩

/-- A string literal that is read consumes at least its closing quote and
the bytes passed over. -/
theorem unquoteLoop_length (s : Bytes) :
    ∀ (k : Nat) (a : GoString) (r : Bytes), unquoteLoop k s = some (a, r) →
      r.length + k + 1 ≤ s.length := by
  induction s with
  | nil => intro k a r h; simp [unquoteLoop] at h
  | cons c rest ih =>
    intro k a r h
    cases k with
    | succ k =>
      simp only [unquoteLoop] at h
      have := ih k a r h
      simp only [List.length_cons]; omega
    | zero =>
      simp only [unquoteLoop] at h
      have key : ∀ (out : Bytes) (k' : Nat), emit out (unquoteLoop k' rest) = some (a, r) →
          r.length + 0 + 1 ≤ (c :: rest).length := by
        intro out k' he
        obtain ⟨b, hb⟩ := emit_eq_some he
        have := ih k' b r hb
        simp only [List.length_cons]; omega
      by_cases h1 : c = 0x22
      · rw [if_pos h1] at h; cases h; simp
      rw [if_neg h1] at h
      by_cases h2 : c = 0x5C
      · rw [if_pos h2] at h
        cases rest with
        | nil => cases h
        | cons e t =>
          dsimp only at h
          by_cases e1 : e = 0x22 ∨ e = 0x5C ∨ e = 0x2F
          · rw [if_pos e1] at h; exact key _ _ h
          rw [if_neg e1] at h
          by_cases e2 : e = 0x62
          · rw [if_pos e2] at h; exact key _ _ h
          rw [if_neg e2] at h
          by_cases e3 : e = 0x66
          · rw [if_pos e3] at h; exact key _ _ h
          rw [if_neg e3] at h
          by_cases e4 : e = 0x6E
          · rw [if_pos e4] at h; exact key _ _ h
          rw [if_neg e4] at h
          by_cases e5 : e = 0x72
          · rw [if_pos e5] at h; exact key _ _ h
          rw [if_neg e5] at h
          by_cases e6 : e = 0x74
          · rw [if_pos e6] at h; exact key _ _ h
          rw [if_neg e6] at h
          by_cases e7 : e = 0x75
          · rw [if_pos e7] at h
            cases hg : getu4 (c :: e :: t) with
            | none => rw [hg] at h; cases h
            | some rr =>
              rw [hg] at h
              dsimp only at h
              by_cases hs : isSurrogate rr = true
              · rw [if_pos hs] at h
                cases hg1 : getu4 (List.drop 5 (e :: t)) with
                | none => rw [hg1] at h; exact key _ _ h
                | some rr1 =>
                  rw [hg1] at h
                  dsimp only at h
                  by_cases hp : utf16DecodeRune rr rr1 ≠ 0xFFFD
                  · rw [if_pos hp] at h; exact key _ _ h
                  · rw [if_neg hp] at h; exact key _ _ h
              · rw [if_neg hs] at h; exact key _ _ h
          · rw [if_neg e7] at h; cases h
      rw [if_neg h2] at h
      by_cases h3 : c < 0x20
      · rw [if_pos h3] at h; cases h
      rw [if_neg h3] at h
      by_cases h4 : c < 0x80
      · rw [if_pos h4] at h; exact key _ _ h
      · rw [if_neg h4] at h; exact key _ _ h

theorem skipDigits_length (s : Bytes) : (skipDigits s).length ≤ s.length := by
  induction s with
  | nil => simp [skipDigits]
  | cons c rest ih =>
    simp only [skipDigits]
    split_ifs
    · simp only [List.length_cons]; omega
    · exact le_rfl

theorem scanExponent_length (s r : Bytes) (h : scanExponent s = some r) :
    r.length < s.length := by
  unfold scanExponent at h
  rcases s with _ | ⟨c, t⟩
  · simp at h
  · by_cases hc : c = 0x2B ∨ c = 0x2D
    · simp only [if_pos hc] at h
      rcases t with _ | ⟨c1, t1⟩
      · simp at h
      · simp only at h
        split_ifs at h
        · cases h
          have := skipDigits_length t1
          simp only [List.length_cons]; omega
    · simp only [if_neg hc] at h
      split_ifs at h
      · cases h
        have := skipDigits_length t
        simp only [List.length_cons]; omega

theorem scanFraction_length (s r : Bytes) (h : scanFraction s = some r) :
    r.length ≤ s.length := by
  unfold scanFraction at h
  rcases s with _ | ⟨c, t⟩
  · cases h; exact le_rfl
  · simp only at h
    by_cases h1 : c = 0x2E
    · rw [if_pos h1] at h
      rcases t with _ | ⟨d, t1⟩
      · cases h
      · simp only at h
        by_cases h2 : isDigit d = true
        · rw [if_pos h2] at h
          have hl := skipDigits_length t1
          cases hsk : skipDigits t1 with
          | nil =>
            rw [hsk] at h; cases h; simp
          | cons e t2 =>
            rw [hsk] at h hl
            simp only at h
            simp only [List.length_cons] at hl ⊢
            split_ifs at h
            · have := scanExponent_length _ _ h; omega
            · cases h; simp only [List.length_cons]; omega
        · rw [if_neg h2] at h; cases h
    · rw [if_neg h1] at h
      split_ifs at h
      · have := scanExponent_length _ _ h
        simp only [List.length_cons]; omega
      · cases h; exact le_rfl

theorem scanNumber_length (c : Nat) (t r : Bytes)
    (h : scanNumber (c :: t) = some r) : r.length < (c :: t).length := by
  unfold scanNumber at h
  by_cases h1 : c = 0x2D
  · simp only [if_pos h1] at h
    rcases t with _ | ⟨c1, t1⟩
    · cases h
    · simp only at h
      split_ifs at h
      · have := scanFraction_length _ _ h
        simp only [List.length_cons]; omega
      · have := scanFraction_length _ _ h
        have := skipDigits_length t1
        simp only [List.length_cons]; omega
  · simp only [if_neg h1] at h
    split_ifs at h
    · have := scanFraction_length _ _ h
      simp only [List.length_cons]; omega
    · have := scanFraction_length _ _ h
      have := skipDigits_length t
      simp only [List.length_cons]; omega

theorem parseValue_succ (fuel depth : Nat) (s : Bytes) :
    parseValue (fuel + 1) depth s = valueStep (parseMembers fuel) (parseElems fuel) depth s := by
  rw [parseValue]; rfl

theorem parseMembers_succ (fuel depth : Nat) (s : Bytes) :
    parseMembers (fuel + 1) depth s =
      membersStep (parseValue fuel) (parseMembers fuel) depth s := by
  cases s with
  | nil => rw [parseMembers]; rfl
  | cons q t => rw [parseMembers]; rfl

theorem parseElems_succ (fuel depth : Nat) (s : Bytes) :
    parseElems (fuel + 1) depth s = elemsStep (parseValue fuel) (parseElems fuel) depth s := by
  rw [parseElems]; rfl

theorem parse_zero (depth : Nat) (s : Bytes) :
    parseValue 0 depth s = none ∧ parseMembers 0 depth s = none ∧
      parseElems 0 depth s = none := by
  refine ⟨?_, ?_, ?_⟩
  · rw [parseValue]
  · rw [parseMembers]
  · rw [parseElems]

theorem map_eq_some_pair {α β : Type} {x : Option (α × Bytes)} {g : α → β} {v : β} {r : Bytes}
    (h : x.map (fun p => (g p.1, p.2)) = some (v, r)) : ∃ a, x = some (a, r) ∧ v = g a := by
  cases x with
  | none => simp at h
  | some p =>
    simp only [Option.map_some', Option.some.injEq, Prod.mk.injEq] at h
    exact ⟨p.1, by rw [← h.2], h.1.symm⟩

/-- A successful `valueStep` either went through the members reader, or
through the elements reader, or did not use them; in each case on a shorter
input, and with the same outcome for any readers that agree on that input. -/
theorem valueStep_inv {pm : Nat → Bytes → Option (List (GoString × JVal) × Bytes)}
    {pe : Nat → Bytes → Option (List JVal × Bytes)} {d : Nat} {s : Bytes} {v : JVal} {r : Bytes}
    (h : valueStep pm pe d s = some (v, r)) :
    (∃ s' ms, s'.length < s.length ∧ pm (d + 1) s' = some (ms, r) ∧
      ∀ pm' pe', pm' (d + 1) s' = some (ms, r) → valueStep pm' pe' d s = some (v, r)) ∨
    (∃ s' xs, s'.length < s.length ∧ pe (d + 1) s' = some (xs, r) ∧
      ∀ pm' pe', pe' (d + 1) s' = some (xs, r) → valueStep pm' pe' d s = some (v, r)) ∨
    (r.length < s.length ∧ ∀ pm' pe', valueStep pm' pe' d s = some (v, r)) := by
  have hsl := skipSpace_length s
  unfold valueStep at h
  cases hs : skipSpace s with
  | nil => rw [hs] at h; cases h
  | cons c t =>
    rw [hs] at h hsl
    simp only [List.length_cons] at hsl
    dsimp only at h
    have htl := skipSpace_length t
    by_cases c1 : c = 0x7B
    · rw [if_pos c1] at h
      by_cases hd : d + 1 > maxNestingDepth
      · rw [if_pos hd] at h; cases h
      rw [if_neg hd] at h
      cases ht : skipSpace t with
      | nil => rw [ht] at h; cases h
      | cons e t1 =>
        rw [ht] at h htl
        simp only [List.length_cons] at htl
        dsimp only at h
        by_cases e1 : e = 0x7D
        · rw [if_pos e1] at h
          cases h
          refine Or.inr (Or.inr ⟨by omega, ?_⟩)
          intro pm' pe'
          unfold valueStep
          simp only [hs, ht, if_pos c1, if_neg hd, if_pos e1]
        · rw [if_neg e1] at h
          obtain ⟨ms, hms, hv⟩ := map_eq_some_pair h
          refine Or.inl ⟨e :: t1, ms, by simp only [List.length_cons]; omega, hms, ?_⟩
          intro pm' pe' hpm'
          unfold valueStep
          simp only [hs, ht, if_pos c1, if_neg hd, if_neg e1, hpm', hv, Option.map_some']
    rw [if_neg c1] at h
    by_cases c2 : c = 0x5B
    · rw [if_pos c2] at h
      by_cases hd : d + 1 > maxNestingDepth
      · rw [if_pos hd] at h; cases h
      rw [if_neg hd] at h
      cases ht : skipSpace t with
      | nil => rw [ht] at h; cases h
      | cons e t1 =>
        rw [ht] at h htl
        simp only [List.length_cons] at htl
        dsimp only at h
        by_cases e1 : e = 0x5D
        · rw [if_pos e1] at h
          cases h
          refine Or.inr (Or.inr ⟨by omega, ?_⟩)
          intro pm' pe'
          unfold valueStep
          simp only [hs, ht, if_neg c1, if_pos c2, if_neg hd, if_pos e1]
        · rw [if_neg e1] at h
          obtain ⟨xs, hxs, hv⟩ := map_eq_some_pair h
          refine Or.inr (Or.inl ⟨e :: t1, xs, by simp only [List.length_cons]; omega, hxs, ?_⟩)
          intro pm' pe' hpe'
          unfold valueStep
          simp only [hs, ht, if_neg c1, if_pos c2, if_neg hd, if_neg e1, hpe', hv,
            Option.map_some']
    rw [if_neg c2] at h
    refine Or.inr (Or.inr ⟨?_, ?_⟩)
    · by_cases c3 : c = 0x22
      · rw [if_pos c3] at h
        obtain ⟨a, ha, _⟩ := map_eq_some_pair h
        have := unquoteLoop_length t 0 a r ha
        omega
      rw [if_neg c3] at h
      by_cases c4 : c = 0x2D ∨ isDigit c = true
      · rw [if_pos c4] at h
        cases hn : scanNumber (c :: t) with
        | none => rw [hn] at h; cases h
        | some r' =>
          rw [hn] at h
          simp only [Option.map_some', Option.some.injEq, Prod.mk.injEq] at h
          have := scanNumber_length c t r' hn
          rw [h.2] at this
          simp only [List.length_cons] at this
          omega
      rw [if_neg c4] at h
      by_cases c5 : c = 0x74
      · rw [if_pos c5] at h
        split at h
        · cases h; simp only [List.length_cons] at hsl; omega
        · cases h
      rw [if_neg c5] at h
      by_cases c6 : c = 0x66
      · rw [if_pos c6] at h
        split at h
        · cases h; simp only [List.length_cons] at hsl; omega
        · cases h
      rw [if_neg c6] at h
      by_cases c7 : c = 0x6E
      · rw [if_pos c7] at h
        split at h
        · cases h; simp only [List.length_cons] at hsl; omega
        · cases h
      rw [if_neg c7] at h
      cases h
    · intro pm' pe'
      unfold valueStep
      simp only [hs, if_neg c1, if_neg c2]
      exact h

theorem map_cons_eq_some {α : Type} {x : Option (List α × Bytes)} {a : α} {l : List α}
    {r : Bytes} (h : x.map (fun p => (a :: p.1, p.2)) = some (l, r)) :
    ∃ l', x = some (l', r) ∧ l = a :: l' := by
  cases x with
  | none => simp at h
  | some p =>
    simp only [Option.map_some', Option.some.injEq, Prod.mk.injEq] at h
    exact ⟨p.1, by rw [← h.2], h.1.symm⟩

/-- A successful `membersStep` read a value on a shorter input and then
either met the closing brace or went through the members reader on the rest;
the outcome is the same for any readers that agree on those inputs. -/
theorem membersStep_inv {pv : Nat → Bytes → Option (JVal × Bytes)}
    {pm : Nat → Bytes → Option (List (GoString × JVal) × Bytes)} {d : Nat} {s : Bytes}
    {ms : List (GoString × JVal)} {r : Bytes}
    (h : membersStep pv pm d s = some (ms, r)) :
    ∃ s1 v r3, s1.length < s.length ∧ pv d s1 = some (v, r3) ∧
      ((r.length < r3.length ∧
          ∀ pv' pm', pv' d s1 = some (v, r3) → membersStep pv' pm' d s = some (ms, r)) ∨
        (∃ s2 ms2, s2.length < r3.length ∧ pm d s2 = some (ms2, r) ∧
          ∀ pv' pm', pv' d s1 = some (v, r3) → pm' d s2 = some (ms2, r) →
            membersStep pv' pm' d s = some (ms, r))) := by
  unfold membersStep at h
  rcases s with _ | ⟨q, t⟩
  · cases h
  dsimp only at h
  by_cases hq : q = 0x22
  swap
  · rw [if_neg hq] at h; cases h
  rw [if_pos hq] at h
  cases hu : unquoteLoop 0 t with
  | none => rw [hu] at h; cases h
  | some kr =>
    obtain ⟨key, r1⟩ := kr
    rw [hu] at h
    dsimp only at h
    have hul := unquoteLoop_length t 0 key r1 hu
    have hsl := skipSpace_length r1
    cases hs1 : skipSpace r1 with
    | nil => rw [hs1] at h; cases h
    | cons c r2 =>
      rw [hs1] at h hsl
      simp only [List.length_cons] at hsl
      dsimp only at h
      by_cases hc : c = 0x3A
      swap
      · rw [if_neg hc] at h; cases h
      rw [if_pos hc] at h
      cases hv : pv d r2 with
      | none => rw [hv] at h; cases h
      | some vr =>
        obtain ⟨v, r3⟩ := vr
        rw [hv] at h
        dsimp only at h
        have hsl3 := skipSpace_length r3
        cases hs3 : skipSpace r3 with
        | nil => rw [hs3] at h; cases h
        | cons c1 r4 =>
          rw [hs3] at h hsl3
          simp only [List.length_cons] at hsl3
          dsimp only at h
          refine ⟨r2, v, r3, by simp only [List.length_cons]; omega, hv, ?_⟩
          by_cases hc1 : c1 = 0x2C
          · rw [if_pos hc1] at h
            obtain ⟨ms2, hms2, hl⟩ := map_cons_eq_some h
            have := skipSpace_length r4
            refine Or.inr ⟨skipSpace r4, ms2, by omega, hms2, ?_⟩
            intro pv' pm' hpv' hpm'
            unfold membersStep
            simp only [if_pos hq, hu, hs1, if_pos hc, hpv', hs3, if_pos hc1, hpm', hl,
              Option.map_some']
          · rw [if_neg hc1] at h
            by_cases hc2 : c1 = 0x7D
            · rw [if_pos hc2] at h
              cases h
              refine Or.inl ⟨by omega, ?_⟩
              intro pv' pm' hpv'
              unfold membersStep
              simp only [if_pos hq, hu, hs1, if_pos hc, hpv', hs3, if_neg hc1, if_pos hc2]
            · rw [if_neg hc2] at h; cases h

/-- A successful `elemsStep` read a value and then either met the closing
bracket or went through the elements reader on the rest; the outcome is the
same for any readers that agree on those inputs. -/
theorem elemsStep_inv {pv : Nat → Bytes → Option (JVal × Bytes)}
    {pe : Nat → Bytes → Option (List JVal × Bytes)} {d : Nat} {s : Bytes}
    {xs : List JVal} {r : Bytes}
    (h : elemsStep pv pe d s = some (xs, r)) :
    ∃ v r1, pv d s = some (v, r1) ∧
      ((r.length < r1.length ∧
          ∀ pv' pe', pv' d s = some (v, r1) → elemsStep pv' pe' d s = some (xs, r)) ∨
        (∃ s2 xs2, s2.length < r1.length ∧ pe d s2 = some (xs2, r) ∧
          ∀ pv' pe', pv' d s = some (v, r1) → pe' d s2 = some (xs2, r) →
            elemsStep pv' pe' d s = some (xs, r))) := by
  unfold elemsStep at h
  cases hv : pv d s with
  | none => rw [hv] at h; cases h
  | some vr =>
    obtain ⟨v, r1⟩ := vr
    rw [hv] at h
    dsimp only at h
    have hsl := skipSpace_length r1
    cases hs1 : skipSpace r1 with
    | nil => rw [hs1] at h; cases h
    | cons c r2 =>
      rw [hs1] at h hsl
      simp only [List.length_cons] at hsl
      dsimp only at h
      refine ⟨v, r1, rfl, ?_⟩
      by_cases hc : c = 0x2C
      · rw [if_pos hc] at h
        obtain ⟨xs2, hxs2, hl⟩ := map_cons_eq_some h
        refine Or.inr ⟨r2, xs2, by omega, hxs2, ?_⟩
        intro pv' pe' hpv' hpe'
        unfold elemsStep
        simp only [hpv', hs1, if_pos hc, hpe', hl, Option.map_some']
      · rw [if_neg hc] at h
        by_cases hc2 : c = 0x5D
        · rw [if_pos hc2] at h
          cases h
          refine Or.inl ⟨by omega, ?_⟩
          intro pv' pe' hpv'
          unfold elemsStep
          simp only [hpv', hs1, if_neg hc, if_pos hc2]
        · rw [if_neg hc2] at h; cases h

/-- Whatever the bound, a successful reading leaves less input than it was
given. -/
theorem parse_rest_shorter (n : Nat) :
    (∀ d s v r, parseValue n d s = some (v, r) → r.length < s.length) ∧
    (∀ d s ms r, parseMembers n d s = some (ms, r) → r.length < s.length) ∧
    (∀ d s xs r, parseElems n d s = some (xs, r) → r.length < s.length) := by
  induction n with
  | zero =>
    refine ⟨?_, ?_, ?_⟩ <;> intro d s _ r h
    · rw [(parse_zero d s).1] at h; cases h
    · rw [(parse_zero d s).2.1] at h; cases h
    · rw [(parse_zero d s).2.2] at h; cases h
  | succ n ih =>
    obtain ⟨ihv, ihm, ihe⟩ := ih
    refine ⟨?_, ?_, ?_⟩
    · intro d s v r h
      rw [parseValue_succ] at h
      rcases valueStep_inv h with ⟨s1, ms, hl, hpm, _⟩ | ⟨s1, xs, hl, hpe, _⟩ | ⟨hl, _⟩
      · have := ihm _ _ _ _ hpm; omega
      · have := ihe _ _ _ _ hpe; omega
      · exact hl
    · intro d s ms r h
      rw [parseMembers_succ] at h
      obtain ⟨s1, v, r3, hl, hpv, hc⟩ := membersStep_inv h
      have h3 := ihv _ _ _ _ hpv
      rcases hc with ⟨hr, _⟩ | ⟨s2, ms2, hl2, hpm, _⟩
      · omega
      · have := ihm _ _ _ _ hpm; omega
    · intro d s xs r h
      rw [parseElems_succ] at h
      obtain ⟨v, r1, hpv, hc⟩ := elemsStep_inv h
      have h1 := ihv _ _ _ _ hpv
      rcases hc with ⟨hr, _⟩ | ⟨s2, xs2, hl2, hpe, _⟩
      · omega
      · have := ihe _ _ _ _ hpe; omega

/-- A successful reading stays the same with a larger bound. -/
theorem parse_mono (n : Nat) :
    (∀ d s x, parseValue n d s = some x → parseValue (n + 1) d s = some x) ∧
    (∀ d s x, parseMembers n d s = some x → parseMembers (n + 1) d s = some x) ∧
    (∀ d s x, parseElems n d s = some x → parseElems (n + 1) d s = some x) := by
  induction n with
  | zero =>
    refine ⟨?_, ?_, ?_⟩ <;> intro d s x h
    · rw [(parse_zero d s).1] at h; cases h
    · rw [(parse_zero d s).2.1] at h; cases h
    · rw [(parse_zero d s).2.2] at h; cases h
  | succ n ih =>
    obtain ⟨ihv, ihm, ihe⟩ := ih
    refine ⟨?_, ?_, ?_⟩
    · intro d s x h
      obtain ⟨v, r⟩ := x
      rw [parseValue_succ] at h ⊢
      rcases valueStep_inv h with ⟨s1, ms, _, hpm, hT⟩ | ⟨s1, xs, _, hpe, hT⟩ | ⟨_, hT⟩
      · exact hT _ _ (ihm _ _ _ hpm)
      · exact hT _ _ (ihe _ _ _ hpe)
      · exact hT _ _
    · intro d s x h
      obtain ⟨ms, r⟩ := x
      rw [parseMembers_succ] at h ⊢
      obtain ⟨s1, v, r3, _, hpv, hc⟩ := membersStep_inv h
      rcases hc with ⟨_, hT⟩ | ⟨s2, ms2, _, hpm, hT⟩
      · exact hT _ _ (ihv _ _ _ hpv)
      · exact hT _ _ (ihv _ _ _ hpv) (ihm _ _ _ hpm)
    · intro d s x h
      obtain ⟨xs, r⟩ := x
      rw [parseElems_succ] at h ⊢
      obtain ⟨v, r1, hpv, hc⟩ := elemsStep_inv h
      rcases hc with ⟨_, hT⟩ | ⟨s2, xs2, _, hpe, hT⟩
      · exact hT _ _ (ihv _ _ _ hpv)
      · exact hT _ _ (ihv _ _ _ hpv) (ihe _ _ _ hpe)

theorem parseValue_mono_le (n m d : Nat) (s : Bytes) (x : JVal × Bytes) (hnm : n ≤ m)
    (h : parseValue n d s = some x) : parseValue m d s = some x := by
  induction m with
  | zero =>
    have : n = 0 := by omega
    rw [this] at h; exact h
  | succ m ih =>
    by_cases hn : n = m + 1
    · rw [← hn]; exact h
    · exact (parse_mono m).1 d s x (ih (by omega))

/-- A reading that succeeds with some bound succeeds, with the same result,
with any bound that is at least the number of bytes it consumed. -/
theorem parse_adequate (n : Nat) :
    (∀ m d s v r, parseValue m d s = some (v, r) → s.length - r.length ≤ n →
      parseValue n d s = some (v, r)) ∧
    (∀ m d s ms r, parseMembers m d s = some (ms, r) → s.length - r.length ≤ n →
      parseMembers n d s = some (ms, r)) ∧
    (∀ m d s xs r, parseElems m d s = some (xs, r) → s.length - r.length ≤ n →
      parseElems n d s = some (xs, r)) := by
  induction n with
  | zero =>
    refine ⟨?_, ?_, ?_⟩ <;> intro m d s _ r h hc
    · have := (parse_rest_shorter m).1 _ _ _ _ h; omega
    · have := (parse_rest_shorter m).2.1 _ _ _ _ h; omega
    · have := (parse_rest_shorter m).2.2 _ _ _ _ h; omega
  | succ n ih =>
    obtain ⟨ihv, ihm, ihe⟩ := ih
    refine ⟨?_, ?_, ?_⟩
    · intro m d s v r h hc
      cases m with
      | zero => rw [(parse_zero d s).1] at h; cases h
      | succ m =>
        rw [parseValue_succ] at h ⊢
        rcases valueStep_inv h with ⟨s1, ms, hl, hpm, hT⟩ | ⟨s1, xs, hl, hpe, hT⟩ | ⟨_, hT⟩
        · exact hT _ _ (ihm m _ _ _ _ hpm (by omega))
        · exact hT _ _ (ihe m _ _ _ _ hpe (by omega))
        · exact hT _ _
    · intro m d s ms r h hc
      cases m with
      | zero => rw [(parse_zero d s).2.1] at h; cases h
      | succ m =>
        rw [parseMembers_succ] at h ⊢
        obtain ⟨s1, v, r3, hl, hpv, hcase⟩ := membersStep_inv h
        have h3 := (parse_rest_shorter m).1 _ _ _ _ hpv
        rcases hcase with ⟨hr, hT⟩ | ⟨s2, ms2, hl2, hpm, hT⟩
        · exact hT _ _ (ihv m _ _ _ _ hpv (by omega))
        · have h2 := (parse_rest_shorter m).2.1 _ _ _ _ hpm
          exact hT _ _ (ihv m _ _ _ _ hpv (by omega)) (ihm m _ _ _ _ hpm (by omega))
    · intro m d s xs r h hc
      cases m with
      | zero => rw [(parse_zero d s).2.2] at h; cases h
      | succ m =>
        rw [parseElems_succ] at h ⊢
        obtain ⟨v, r1, hpv, hcase⟩ := elemsStep_inv h
        have h1 := (parse_rest_shorter m).1 _ _ _ _ hpv
        rcases hcase with ⟨hr, hT⟩ | ⟨s2, xs2, hl2, hpe, hT⟩
        · exact hT _ _ (ihv m _ _ _ _ hpv (by omega))
        · have h2 := (parse_rest_shorter m).2.2 _ _ _ _ hpe
          exact hT _ _ (ihv m _ _ _ _ hpv (by omega)) (ihe m _ _ _ _ hpe (by omega))

/-- The bound `jsonParse` uses is never the reason a reading fails: with any
larger bound the result is the same. -/
theorem parseValue_fuel (data : Bytes) (depth m : Nat) (hm : data.length + 1 ≤ m) :
    parseValue m depth data = parseValue (data.length + 1) depth data := by
  cases h : parseValue m depth data with
  | some x =>
    obtain ⟨v, r⟩ := x
    exact ((parse_adequate (data.length + 1)).1 m depth data v r h (by omega)).symm
  | none =>
    cases h2 : parseValue (data.length + 1) depth data with
    | none => rfl
    | some x =>
      rw [parseValue_mono_le _ m depth data x hm h2] at h
      cases h


set_option maxRecDepth 100000

/-! ## Create, read, update, delete -/

/-- Claim C1, as stated, fails: with the empty store and a stub that never
fails, `Createagent("a", "\xff", "", ...)` succeeds, but `Readagent("a")`
then returns a record whose DID is the three bytes of U+FFFD, not the byte
0xFF that was given. -/
theorem create_read_invalid_utf8 :
    (World.mk Store.empty []).store.get [0x61] = none ∧
    (Createagent Faults.none [0x61] [0xFF] [] [] [] [] [] [] ⟨Store.empty, []⟩).1 = .ok () ∧
    (Readagent Faults.none [0x61]
      (Createagent Faults.none [0x61] [0xFF] [] [] [] [] [] [] ⟨Store.empty, []⟩).2).1 =
      .ok ⟨[0x61], [0xEF, 0xBF, 0xBD], [], [], [], [], [], [], goStr "active"⟩ ∧
    (Readagent Faults.none [0x61]
      (Createagent Faults.none [0x61] [0xFF] [] [] [] [] [] [] ⟨Store.empty, []⟩).2).1 ≠
      .ok ⟨[0x61], [0xFF], [], [], [], [], [], [], goStr "active"⟩ := by
  decide

/-- Claim C1, amended: for every store in which key `id` is absent and for
every choice of the eight string arguments, if the stub's read and write
succeed then `Createagent` succeeds, and `Readagent(id)` on the resulting
store succeeds and returns an agent whose Status is "active"; when the eight
arguments are valid UTF-8, that agent's ID, DID, Name, Address, Represents,
AgentType, Roles and IAM are exactly the given arguments. -/
theorem create_then_read (f1 f2 : Faults)
    (id did name address represents agentType roles iam : GoString) (w : World)
    (habs : w.store.get id = none)
    (hget1 : f1.getState id = none) (hput1 : ∀ v, f1.putState id v = none)
    (hget2 : f2.getState id = none) :
    (Createagent f1 id did name address represents agentType roles iam w).1 = .ok () ∧
    ∃ a : Agent,
      (Readagent f2 id
        (Createagent f1 id did name address represents agentType roles iam w).2).1 = .ok a ∧
      a.Status = goStr "active" ∧
      (validUTF8 id = true ∧ validUTF8 did = true ∧ validUTF8 name = true ∧
        validUTF8 address = true ∧ validUTF8 represents = true ∧ validUTF8 agentType = true ∧
        validUTF8 roles = true ∧ validUTF8 iam = true →
        a = { ID := id, DID := did, Name := name, Address := address,
              Represents := represents, AgentType := agentType, Roles := roles, IAM := iam,
              Status := goStr "active" }) := by
  rw [Createagent_absent f1 id did name address represents agentType roles iam w habs hget1 hput1]
  refine ⟨rfl, (newAgent id did name address represents agentType roles iam).coerce, ?_, ?_, ?_⟩
  · rw [Readagent_present f2 id _ _ (Store.get_put_self _ _ _) hget2, jsonUnmarshal_encodeFields]
  · show coerceUTF8 (goStr "active") = goStr "active"
    decide
  · intro hvalid
    apply Agent.coerce_valid
    obtain ⟨h1, h2, h3, h4, h5, h6, h7, h8⟩ := hvalid
    simp only [Agent.valid, newAgent, h1, h2, h3, h4, h5, h6, h7, h8, Bool.and_true,
      Bool.true_and]
    decide

/-- Witness for `create_then_read`: creating "agent7" in the empty store. -/
theorem create_then_read_witness :
    (World.mk Store.empty []).store.get (goStr "agent7") = none ∧
    (Readagent Faults.none (goStr "agent7")
      (Createagent Faults.none (goStr "agent7") (goStr "did:x:7") (goStr "Zoë") [] [] [] [] []
        ⟨Store.empty, []⟩).2).1 =
      .ok ⟨goStr "agent7", goStr "did:x:7", goStr "Zoë", [], [], [], [], [], goStr "active"⟩ := by
  obtain ⟨_, a, hr, _, ha⟩ := create_then_read Faults.none Faults.none (goStr "agent7")
    (goStr "did:x:7") (goStr "Zoë") [] [] [] [] [] ⟨Store.empty, []⟩ (by decide) rfl
    (fun _ => rfl) rfl
  exact ⟨by decide, by rw [hr, ha (by decide)]⟩

/-- Claim C2: for every store in which key `id` is present, `Createagent`
fails with the already-exists error; the store after the call is the store
before it, and the only call on the stub is the `GetState` of the probe. -/
theorem create_existing_fails (f : Faults)
    (id did name address represents agentType roles iam : GoString) (w : World) (v : Bytes)
    (hpres : w.store.get id = some v) (hget : f.getState id = none) :
    (Createagent f id did name address represents agentType roles iam w).1 =
      .error (.alreadyExists id) ∧
    (Createagent f id did name address represents agentType roles iam w).2.store = w.store ∧
    (Createagent f id did name address represents agentType roles iam w).2.trace =
      w.trace ++ [.getState id] := by
  rw [Createagent_present f id did name address represents agentType roles iam w v hpres hget]
  exact ⟨rfl, rfl, rfl⟩

/-- Witness for `create_existing_fails`: key "a" holds the bytes "x". -/
theorem create_existing_fails_witness :
    (Store.empty.put (goStr "a") (goStr "x")).get (goStr "a") = some (goStr "x") ∧
    (Createagent Faults.none (goStr "a") [] [] [] [] [] [] []
      ⟨Store.empty.put (goStr "a") (goStr "x"), []⟩).1 = .error (.alreadyExists (goStr "a")) :=
  ⟨by decide, (create_existing_fails Faults.none (goStr "a") [] [] [] [] [] [] []
    ⟨Store.empty.put (goStr "a") (goStr "x"), []⟩ (goStr "x") (by decide) rfl).1⟩

/-- Claim C3: for every store in which key `id` is absent, when the stub's
read succeeds, each of `Readagent`, `Updateagent` and `Deleteagent` fails with
the not-found error and leaves the store as it was. -/
theorem absent_not_found (f : Faults)
    (id did name address represents agentType roles iam status : GoString) (w : World)
    (habs : w.store.get id = none) (hget : f.getState id = none) :
    ((Readagent f id w).1 = .error (.doesNotExist id) ∧ (Readagent f id w).2.store = w.store) ∧
    ((Updateagent f id did name address represents agentType roles iam status w).1 =
        .error (.doesNotExist id) ∧
      (Updateagent f id did name address represents agentType roles iam status w).2.store =
        w.store) ∧
    ((Deleteagent f id w).1 = .error (.doesNotExist id) ∧
      (Deleteagent f id w).2.store = w.store) := by
  rw [Readagent_absent f id w habs hget,
    Updateagent_absent f id did name address represents agentType roles iam status w habs hget,
    Deleteagent_absent f id w habs hget]
  exact ⟨⟨rfl, rfl⟩, ⟨rfl, rfl⟩, ⟨rfl, rfl⟩⟩

/-- Witness for `absent_not_found`: key "b" in a store that holds only "a". -/
theorem absent_not_found_witness :
    (Store.empty.put (goStr "a") (goStr "x")).get (goStr "b") = none ∧
    (Deleteagent Faults.none (goStr "b") ⟨Store.empty.put (goStr "a") (goStr "x"), []⟩).1 =
      .error (.doesNotExist (goStr "b")) :=
  ⟨by decide, (absent_not_found Faults.none (goStr "b") [] [] [] [] [] [] [] []
    ⟨Store.empty.put (goStr "a") (goStr "x"), []⟩ (by decide) rfl).2.2.1⟩

/-- Claim C4, as stated, fails: key "a" is present, the stub never fails,
and `Updateagent("a", "\xff", "", ..., "")` succeeds, but `Readagent("a")` then
returns a record whose DID is the three bytes of U+FFFD, not the byte 0xFF
that was given. -/
theorem update_read_invalid_utf8 :
    (Store.empty.put [0x61] [0x78]).get [0x61] = some [0x78] ∧
    (Updateagent Faults.none [0x61] [0xFF] [] [] [] [] [] [] []
      ⟨Store.empty.put [0x61] [0x78], []⟩).1 = .ok () ∧
    (Readagent Faults.none [0x61]
      (Updateagent Faults.none [0x61] [0xFF] [] [] [] [] [] [] []
        ⟨Store.empty.put [0x61] [0x78], []⟩).2).1 =
      .ok ⟨[0x61], [0xEF, 0xBF, 0xBD], [], [], [], [], [], [], []⟩ ∧
    (Readagent Faults.none [0x61]
      (Updateagent Faults.none [0x61] [0xFF] [] [] [] [] [] [] []
        ⟨Store.empty.put [0x61] [0x78], []⟩).2).1 ≠
      .ok ⟨[0x61], [0xFF], [], [], [], [], [], [], []⟩ := by
  decide

/-- Claim C4, amended: for every store in which key `id` is present with any
prior value, and for every choice of the nine string arguments, if the stub's
calls succeed then `Updateagent` succeeds and `Readagent(id)` on the resulting
store succeeds; when the nine arguments are valid UTF-8, it returns the agent
made of exactly those nine values (Status being the caller's); and the value
stored at `id` after the update is the same in any two stores that contain
`id`. -/
theorem update_then_read (f1 f2 : Faults)
    (id did name address represents agentType roles iam status : GoString) (w : World)
    (v : Bytes) (hpres : w.store.get id = some v)
    (hget1 : f1.getState id = none) (hput1 : ∀ v, f1.putState id v = none)
    (hget2 : f2.getState id = none) :
    (Updateagent f1 id did name address represents agentType roles iam status w).1 = .ok () ∧
    (∃ a : Agent,
      (Readagent f2 id
        (Updateagent f1 id did name address represents agentType roles iam status w).2).1 =
        .ok a ∧
      (validUTF8 id = true ∧ validUTF8 did = true ∧ validUTF8 name = true ∧
        validUTF8 address = true ∧ validUTF8 represents = true ∧ validUTF8 agentType = true ∧
        validUTF8 roles = true ∧ validUTF8 iam = true ∧ validUTF8 status = true →
        a = { ID := id, DID := did, Name := name, Address := address,
              Represents := represents, AgentType := agentType, Roles := roles, IAM := iam,
              Status := status })) ∧
    (∀ (w' : World) (v' : Bytes), w'.store.get id = some v' →
      (Updateagent f1 id did name address represents agentType roles iam status w').2.store.get
          id =
        (Updateagent f1 id did name address represents agentType roles iam status w).2.store.get
          id) := by
  rw [Updateagent_present f1 id did name address represents agentType roles iam status w v hpres
    hget1 hput1]
  refine ⟨rfl, ⟨(Agent.mk id did name address represents agentType roles iam status).coerce,
    ?_, ?_⟩, ?_⟩
  · rw [Readagent_present f2 id _ _ (Store.get_put_self _ _ _) hget2,
      jsonUnmarshal_encodeFields]
  · intro hvalid
    apply Agent.coerce_valid
    obtain ⟨h1, h2, h3, h4, h5, h6, h7, h8, h9⟩ := hvalid
    simp only [Agent.valid, h1, h2, h3, h4, h5, h6, h7, h8, h9, Bool.and_true]
  · intro w' v' hpres'
    rw [Updateagent_present f1 id did name address represents agentType roles iam status w' v'
      hpres' hget1 hput1]
    simp only [Store.get_put_self]

/-- Witness for `update_then_read`: key "a" holds the bytes "x" and is
updated with a status of "retired". -/
theorem update_then_read_witness :
    (Store.empty.put (goStr "a") (goStr "x")).get (goStr "a") = some (goStr "x") ∧
    (Readagent Faults.none (goStr "a")
      (Updateagent Faults.none (goStr "a") (goStr "d") [] [] [] [] [] [] (goStr "retired")
        ⟨Store.empty.put (goStr "a") (goStr "x"), []⟩).2).1 =
      .ok ⟨goStr "a", goStr "d", [], [], [], [], [], [], goStr "retired"⟩ := by
  obtain ⟨_, ⟨a, hr, ha⟩, _⟩ := update_then_read Faults.none Faults.none (goStr "a") (goStr "d")
    [] [] [] [] [] [] (goStr "retired") ⟨Store.empty.put (goStr "a") (goStr "x"), []⟩ (goStr "x")
    (by decide) rfl (fun _ => rfl) rfl
  exact ⟨by decide, by rw [hr, ha (by decide)]⟩

/-- Claim C5: for every store in which key `id` is present, if the stub's
calls succeed then `Deleteagent(id)` succeeds, and on the resulting store
`Readagent(id)` fails with the not-found error and `Createagent(id, ...)` with
any arguments succeeds. -/
theorem delete_then_read_create (f1 f2 f3 : Faults)
    (id did name address represents agentType roles iam : GoString) (w : World) (v : Bytes)
    (hpres : w.store.get id = some v)
    (hget1 : f1.getState id = none) (hdel1 : f1.delState id = none)
    (hget2 : f2.getState id = none)
    (hget3 : f3.getState id = none) (hput3 : ∀ v, f3.putState id v = none) :
    (Deleteagent f1 id w).1 = .ok () ∧
    (Readagent f2 id (Deleteagent f1 id w).2).1 = .error (.doesNotExist id) ∧
    (Createagent f3 id did name address represents agentType roles iam
      (Deleteagent f1 id w).2).1 = .ok () := by
  rw [Deleteagent_present f1 id w v hpres hget1 hdel1]
  refine ⟨rfl, ?_, ?_⟩
  · rw [Readagent_absent f2 id _ (Store.get_del_self _ _) hget2]
  · rw [Createagent_absent f3 id did name address represents agentType roles iam _
      (Store.get_del_self _ _) hget3 hput3]

/-- Witness for `delete_then_read_create`: key "a" holds the bytes "x". -/
theorem delete_then_read_create_witness :
    (Store.empty.put (goStr "a") (goStr "x")).get (goStr "a") = some (goStr "x") ∧
    (Deleteagent Faults.none (goStr "a") ⟨Store.empty.put (goStr "a") (goStr "x"), []⟩).1 =
      .ok () ∧
    (Readagent Faults.none (goStr "a")
      (Deleteagent Faults.none (goStr "a")
        ⟨Store.empty.put (goStr "a") (goStr "x"), []⟩).2).1 =
      .error (.doesNotExist (goStr "a")) :=
  ⟨by decide,
   (delete_then_read_create Faults.none Faults.none Faults.none (goStr "a") [] [] [] [] [] [] []
      ⟨Store.empty.put (goStr "a") (goStr "x"), []⟩ (goStr "x") (by decide) rfl rfl rfl rfl
      (fun _ => rfl)).1,
   (delete_then_read_create Faults.none Faults.none Faults.none (goStr "a") [] [] [] [] [] [] []
      ⟨Store.empty.put (goStr "a") (goStr "x"), []⟩ (goStr "x") (by decide) rfl rfl rfl rfl
      (fun _ => rfl)).2.1⟩

/-! ## The record codec -/

/-- Claim C7, as stated, fails: the agent whose ID is the single byte 0xFF
encodes, and the encoding decodes, but to an agent whose ID is the three
bytes of U+FFFD. -/
theorem codec_invalid_utf8 :
    (jsonMarshal ⟨[0xFF], [], [], [], [], [], [], [], []⟩).bind jsonUnmarshal =
      .ok ⟨[0xEF, 0xBF, 0xBD], [], [], [], [], [], [], [], []⟩ ∧
    (jsonMarshal ⟨[0xFF], [], [], [], [], [], [], [], []⟩).bind jsonUnmarshal ≠
      .ok ⟨[0xFF], [], [], [], [], [], [], [], []⟩ := by
  decide

/-- Claim C7, amended: for every agent `r`, encoding `r` with `json.Marshal`
succeeds and decoding the resulting bytes with `json.Unmarshal` succeeds;
when the nine fields of `r` are valid UTF-8, the decoded agent is equal to
`r`. -/
theorem codec_round_trip (r : Agent) :
    ∃ (data : Bytes) (r' : Agent), jsonMarshal r = .ok data ∧ jsonUnmarshal data = .ok r' ∧
      (validUTF8 r.ID = true ∧ validUTF8 r.DID = true ∧ validUTF8 r.Name = true ∧
        validUTF8 r.Address = true ∧ validUTF8 r.Represents = true ∧
        validUTF8 r.AgentType = true ∧ validUTF8 r.Roles = true ∧ validUTF8 r.IAM = true ∧
        validUTF8 r.Status = true → r' = r) := by
  refine ⟨_, r.coerce, rfl, jsonUnmarshal_encodeFields r, ?_⟩
  intro hvalid
  apply Agent.coerce_valid
  obtain ⟨h1, h2, h3, h4, h5, h6, h7, h8, h9⟩ := hvalid
  simp only [Agent.valid, h1, h2, h3, h4, h5, h6, h7, h8, h9, Bool.and_true]

/-- Witness for `codec_round_trip`: a record with escapes and multi-byte
characters. -/
theorem codec_round_trip_witness :
    ∃ data,
      jsonMarshal ⟨goStr "agent1", goStr "a<b>&c", goStr "Zoë \"Z\" €", goStr "1\\2\n", [], [],
        [], [], goStr "active"⟩ = .ok data ∧
      jsonUnmarshal data = .ok ⟨goStr "agent1", goStr "a<b>&c", goStr "Zoë \"Z\" €",
        goStr "1\\2\n", [], [], [], [], goStr "active"⟩ := by
  obtain ⟨data, r', hm, hu, hr⟩ := codec_round_trip ⟨goStr "agent1", goStr "a<b>&c",
    goStr "Zoë \"Z\" €", goStr "1\\2\n", [], [], [], [], goStr "active"⟩
  exact ⟨data, hm, by rw [hu, hr (by decide)]⟩

/-- Claim C8, as stated, fails: in the encoding of the agent whose ID is the
single byte 0xFF, the key ID is mapped to the three bytes of U+FFFD, not to
the ID of the agent. -/
theorem marshal_invalid_utf8 :
    (jsonMarshal ⟨[0xFF], [], [], [], [], [], [], [], []⟩).toOption.bind jsonParse =
      some (JVal.obj
        [(goStr "ID", JVal.str [0xEF, 0xBF, 0xBD]), (goStr "DID", JVal.str []),
         (goStr "NAME", JVal.str []), (goStr "ADDRESS", JVal.str []),
         (goStr "REPRESENTS", JVal.str []), (goStr "TYPE", JVal.str []),
         (goStr "ROLES", JVal.str []), (goStr "IAM", JVal.str []),
         (goStr "STATUS", JVal.str [])]) ∧
    (jsonMarshal ⟨[0xFF], [], [], [], [], [], [], [], []⟩).toOption.bind jsonParse ≠
      some (JVal.obj
        [(goStr "ID", JVal.str [0xFF]), (goStr "DID", JVal.str []),
         (goStr "NAME", JVal.str []), (goStr "ADDRESS", JVal.str []),
         (goStr "REPRESENTS", JVal.str []), (goStr "TYPE", JVal.str []),
         (goStr "ROLES", JVal.str []), (goStr "IAM", JVal.str []),
         (goStr "STATUS", JVal.str [])]) := by
  have h : (jsonMarshal ⟨[0xFF], [], [], [], [], [], [], [], []⟩).toOption.bind jsonParse =
      some (JVal.obj
        [(goStr "ID", JVal.str [0xEF, 0xBF, 0xBD]), (goStr "DID", JVal.str []),
         (goStr "NAME", JVal.str []), (goStr "ADDRESS", JVal.str []),
         (goStr "REPRESENTS", JVal.str []), (goStr "TYPE", JVal.str []),
         (goStr "ROLES", JVal.str []), (goStr "IAM", JVal.str []),
         (goStr "STATUS", JVal.str [])]) := rfl
  refine ⟨h, ?_⟩
  rw [h]
  intro e
  simp at e

/-- Claim C8, amended: for every agent `r`, the encoding of `r` is a single
object whose keys are exactly ID, DID, NAME, ADDRESS, REPRESENTS, TYPE, ROLES,
IAM, STATUS, each present once even when the field is empty, and each mapped
to the string of the corresponding field coerced to valid UTF-8; the
coercion leaves a valid UTF-8 string as it is, so a field that is valid UTF-8
is mapped to itself. -/
theorem marshal_shape (r : Agent) :
    (∃ data, jsonMarshal r = .ok data ∧
      jsonParse data = some (JVal.obj
        [(goStr "ID", JVal.str (coerceUTF8 r.ID)), (goStr "DID", JVal.str (coerceUTF8 r.DID)),
         (goStr "NAME", JVal.str (coerceUTF8 r.Name)),
         (goStr "ADDRESS", JVal.str (coerceUTF8 r.Address)),
         (goStr "REPRESENTS", JVal.str (coerceUTF8 r.Represents)),
         (goStr "TYPE", JVal.str (coerceUTF8 r.AgentType)),
         (goStr "ROLES", JVal.str (coerceUTF8 r.Roles)),
         (goStr "IAM", JVal.str (coerceUTF8 r.IAM)),
         (goStr "STATUS", JVal.str (coerceUTF8 r.Status))])) ∧
    (∀ s : GoString, validUTF8 s = true → coerceUTF8 s = s) :=
  ⟨⟨_, rfl, jsonParse_encodeFields r⟩, coerceUTF8_valid⟩

/-- Witness for `marshal_shape`: the field "Zoë" is valid UTF-8 and is
mapped to itself. -/
theorem marshal_shape_witness :
    validUTF8 (goStr "Zoë") = true ∧ coerceUTF8 (goStr "Zoë") = goStr "Zoë" :=
  ⟨by decide, (marshal_shape Agent.zero).2 (goStr "Zoë") (by decide)⟩

/-- Claim C9: `agentExists(id)` returns true exactly when `GetState(id)`
succeeds with a value, whatever the bytes; so on a store where `id` holds
bytes that do not decode, with a stub whose calls succeed, `Createagent`
fails with the already-exists error, `Updateagent` succeeds and replaces the
value, `Deleteagent` succeeds and removes the key, and `Readagent` fails with
the error of the decoder. -/
theorem exists_ignores_content (f : Faults)
    (id did name address represents agentType roles iam status : GoString) (w : World) :
    ((agentExists f id w).1 = .ok true ↔
      f.getState id = none ∧ ∃ v, w.store.get id = some v) ∧
    (∀ (v : Bytes) (e : Error), w.store.get id = some v → jsonUnmarshal v = .error e →
      f.getState id = none → (∀ v', f.putState id v' = none) → f.delState id = none →
      (Createagent f id did name address represents agentType roles iam w).1 =
        .error (.alreadyExists id) ∧
      ((Updateagent f id did name address represents agentType roles iam status w).1 = .ok () ∧
        (Updateagent f id did name address represents agentType roles iam status w).2.store.get
            id =
          some (encodeFields
            ⟨id, did, name, address, represents, agentType, roles, iam, status⟩
            0x7B Field.all)) ∧
      ((Deleteagent f id w).1 = .ok () ∧ (Deleteagent f id w).2.store.get id = none) ∧
      ((Readagent f id w).1 = .error e ∧ ∃ je, e = .json je)) := by
  constructor
  · cases hg : f.getState id with
    | some err => simp [agentExists, GetState, hg]
    | none =>
      rw [agentExists_eq f id w hg]
      cases w.store.get id <;> simp
  · intro v e hpres hbad hget hput hdel
    rw [Createagent_present f id did name address represents agentType roles iam w v hpres hget,
      Updateagent_present f id did name address represents agentType roles iam status w v hpres
        hget hput,
      Deleteagent_present f id w v hpres hget hdel, Readagent_present f id w v hpres hget]
    exact ⟨rfl, ⟨rfl, Store.get_put_self _ _ _⟩, ⟨rfl, Store.get_del_self _ _⟩, hbad,
      jsonUnmarshal_error v e hbad⟩

/-- Witness for `exists_ignores_content`: key "a" holds the bytes "x", which
are not JSON. -/
theorem exists_ignores_content_witness :
    (Store.empty.put (goStr "a") (goStr "x")).get (goStr "a") = some (goStr "x") ∧
    jsonUnmarshal (goStr "x") = .error (.json .malformed) ∧
    (Createagent Faults.none (goStr "a") [] [] [] [] [] [] []
      ⟨Store.empty.put (goStr "a") (goStr "x"), []⟩).1 = .error (.alreadyExists (goStr "a")) ∧
    (Readagent Faults.none (goStr "a") ⟨Store.empty.put (goStr "a") (goStr "x"), []⟩).1 =
      .error (.json .malformed) :=
  have h := (exists_ignores_content Faults.none (goStr "a") [] [] [] [] [] [] [] []
    ⟨Store.empty.put (goStr "a") (goStr "x"), []⟩).2 (goStr "x") (.json .malformed) (by decide)
    (by decide) rfl (fun _ => rfl) rfl
  ⟨by decide, by decide, h.1, h.2.2.2.1⟩

/-! ## Seeding and enumeration -/

/-- A successful `initLoop` has written every record, in order. -/
theorem initLoop_ok (f : Faults) (agents : List Agent) (w : World)
    (h : (initLoop f agents w).1 = .ok ()) :
    (initLoop f agents w).2.store =
      agents.foldl (fun s a => s.put a.ID (encodeFields a 0x7B Field.all)) w.store := by
  induction agents generalizing w with
  | nil => rfl
  | cons a rest ih =>
    simp only [initLoop, jsonMarshal, PutState] at h ⊢
    cases hp : f.putState a.ID (encodeFields a 0x7B Field.all) with
    | some err => simp [hp] at h
    | none =>
      simp only [hp] at h ⊢
      rw [ih _ h]
      rfl

/-- The loop of `GetAllagents` when `Next` never fails and every value
decodes: the decoded records are appended in scan order. -/
theorem getAllLoop_ok (f : Faults) (hnext : ∀ n, f.next n = none)
    (results : List (GoString × Bytes)) (decoded : List Agent)
    (hdec : results.map (fun e => jsonUnmarshal e.2) = decoded.map Except.ok) :
    ∀ (pos : Nat) (agents : List Agent) (w : World),
      (getAllLoop f pos results agents w).1 = .ok (agents ++ decoded) := by
  induction results generalizing decoded with
  | nil =>
    intro pos agents w
    cases decoded with
    | nil => simp [getAllLoop]
    | cons d ds => simp at hdec
  | cons e rest ih =>
    intro pos agents w
    cases decoded with
    | nil => simp at hdec
    | cons d ds =>
      simp only [List.map_cons, List.cons.injEq] at hdec
      simp only [getAllLoop, hnext, hdec.1]
      rw [ih ds hdec.2]
      simp

/-- The result of `GetAllagents` when the scan does not fail and every value
decodes. -/
theorem GetAllagents_ok (f : Faults) (w : World) (hscan : f.getStateByRange [] [] = none)
    (hnext : ∀ n, f.next n = none) (decoded : List Agent)
    (hdec : (w.store.range [] []).map (fun e => jsonUnmarshal e.2) = decoded.map Except.ok) :
    (GetAllagents f w).1 = .ok decoded := by
  simp only [GetAllagents, GetStateByRange, hscan]
  have := getAllLoop_ok f hnext _ decoded hdec 0 [] (w.log (.getStateByRange [] []))
  revert this
  cases getAllLoop f 0 (w.store.range [] []) [] (w.log (.getStateByRange [] [])) with
  | mk r w2 => intro h; simpa using h

/-- Values that all decode have a list of decodings. -/
theorem decodings_exist (l : List (GoString × Bytes))
    (h : ∀ e ∈ l, ∃ a, jsonUnmarshal e.2 = .ok a) :
    ∃ decoded : List Agent, l.map (fun e => jsonUnmarshal e.2) = decoded.map Except.ok := by
  induction l with
  | nil => exact ⟨[], rfl⟩
  | cons e rest ih =>
    obtain ⟨a, ha⟩ := h e (List.mem_cons_self _ _)
    obtain ⟨ds, hds⟩ := ih (fun e' he' => h e' (List.mem_cons_of_mem _ he'))
    exact ⟨a :: ds, by simp [ha, hds]⟩

/-- Values on which `json.Unmarshal` returns no error decode. -/
theorem decode_of_toBool (l : List (GoString × Bytes))
    (h : ∀ e ∈ l, (jsonUnmarshal e.2).toBool = true) :
    ∀ e ∈ l, ∃ a, jsonUnmarshal e.2 = .ok a := by
  intro e he
  have := h e he
  cases hj : jsonUnmarshal e.2 with
  | ok a => exact ⟨a, rfl⟩
  | error err => rw [hj] at this; cases this

/-- Claim C6: starting from the empty store, after a successful `InitLedger`,
`GetAllagents` (its scan not failing) returns exactly three records, in the
order agent1, agent2, agent3, with ID "agentN", DID "agentN@myssi.org", Name
"Number One", "Number Two", "Number Three", and every other field empty. -/
theorem init_then_get_all (f1 f2 : Faults) (w : World) (hempty : w.store = Store.empty)
    (hinit : (InitLedger f1 w).1 = .ok ())
    (hscan : f2.getStateByRange [] [] = none) (hnext : ∀ n, f2.next n = none) :
    (GetAllagents f2 (InitLedger f1 w).2).1 =
      .ok [⟨goStr "agent1", goStr "agent1@myssi.org", goStr "Number One", [], [], [], [], [], []⟩,
           ⟨goStr "agent2", goStr "agent2@myssi.org", goStr "Number Two", [], [], [], [], [], []⟩,
           ⟨goStr "agent3", goStr "agent3@myssi.org", goStr "Number Three", [], [], [], [], [],
             []⟩] := by
  apply GetAllagents_ok f2 _ hscan hnext
  have hs := initLoop_ok f1 initAgents w hinit
  rw [hempty] at hs
  unfold InitLedger
  rw [hs]
  decide

/-- Witness for `init_then_get_all`: the stub that never fails. -/
theorem init_then_get_all_witness :
    (InitLedger Faults.none ⟨Store.empty, []⟩).1 = .ok () ∧
    (GetAllagents Faults.none (InitLedger Faults.none ⟨Store.empty, []⟩).2).1 =
      .ok [⟨goStr "agent1", goStr "agent1@myssi.org", goStr "Number One", [], [], [], [], [], []⟩,
           ⟨goStr "agent2", goStr "agent2@myssi.org", goStr "Number Two", [], [], [], [], [], []⟩,
           ⟨goStr "agent3", goStr "agent3@myssi.org", goStr "Number Three", [], [], [], [], [],
             []⟩] :=
  ⟨by decide, init_then_get_all Faults.none Faults.none ⟨Store.empty, []⟩ rfl (by decide) rfl
    (fun _ => rfl)⟩

/-- Claim C10: for every store all of whose values decode, `GetAllagents`
(its scan not failing) succeeds and returns one record per entry of the
store, in the order of the range scan, which yields every entry of the store
in strictly ascending key order; the i-th record is the decoding of the i-th
scanned value; on the empty store the result is empty. -/
theorem get_all_agents (f : Faults) (w : World)
    (hscan : f.getStateByRange [] [] = none) (hnext : ∀ n, f.next n = none)
    (hdec : ∀ e ∈ w.store.entries, ∃ a, jsonUnmarshal e.2 = .ok a) :
    ∃ agents : List Agent,
      (GetAllagents f w).1 = .ok agents ∧
      agents.length = w.store.entries.length ∧
      (w.store.range [] []).map (fun e => jsonUnmarshal e.2) = agents.map Except.ok ∧
      w.store.range [] [] = w.store.entries ∧
      Ascending (w.store.range [] []) ∧
      (w.store.entries = [] → agents = []) := by
  have hr := Store.range_all w.store
  obtain ⟨decoded, hd⟩ := decodings_exist w.store.entries hdec
  have hlen : decoded.length = w.store.entries.length := by
    have := congrArg List.length hd
    simpa using this.symm
  refine ⟨decoded, GetAllagents_ok f w hscan hnext decoded (by rw [hr]; exact hd), hlen,
    by rw [hr]; exact hd, hr, by rw [hr]; exact w.store.sorted, ?_⟩
  intro he
  rw [he] at hlen
  exact List.length_eq_zero.mp hlen

/-- Witness for `get_all_agents`: the store written by `InitLedger`. -/
theorem get_all_agents_witness :
    ∃ agents : List Agent,
      (GetAllagents Faults.none (InitLedger Faults.none ⟨Store.empty, []⟩).2).1 = .ok agents ∧
      agents.length = 3 := by
  obtain ⟨agents, h1, h2, _⟩ := get_all_agents Faults.none
    (InitLedger Faults.none ⟨Store.empty, []⟩).2 rfl (fun _ => rfl)
    (decode_of_toBool _ (by decide))
  exact ⟨agents, h1, h2⟩

/-! ## Frame and read-only properties -/

/-- The world after `agentExists` is the world before with the probe logged. -/
theorem agentExists_world (f : Faults) (id : GoString) (w : World) :
    (agentExists f id w).2 = w.log (.getState id) := by
  unfold agentExists GetState
  cases f.getState id <;> rfl

/-- The store after `Createagent` is the store before, or the store before
with a value written at `id`. -/
theorem Createagent_store (f : Faults)
    (id did name address represents agentType roles iam : GoString) (w : World) :
    (Createagent f id did name address represents agentType roles iam w).2.store = w.store ∨
    (Createagent f id did name address represents agentType roles iam w).2.store =
      w.store.put id (newAgent id did name address represents agentType roles iam).encoding := by
  unfold Createagent agentExists GetState
  cases f.getState id with
  | some err => left; rfl
  | none =>
    cases hg : w.store.get id with
    | some v => left; simp; rfl
    | none =>
      simp only [Option.isSome_none, jsonMarshal, PutState]
      cases f.putState id _ with
      | some err => left; rfl
      | none => right; rfl

/-- The store after `Updateagent` is the store before, or the store before
with a value written at `id`. -/
theorem Updateagent_store (f : Faults)
    (id did name address represents agentType roles iam status : GoString) (w : World) :
    (Updateagent f id did name address represents agentType roles iam status w).2.store =
      w.store ∨
    (Updateagent f id did name address represents agentType roles iam status w).2.store =
      w.store.put id
        (Agent.mk id did name address represents agentType roles iam status).encoding := by
  unfold Updateagent agentExists GetState
  cases f.getState id with
  | some err => left; rfl
  | none =>
    cases hg : w.store.get id with
    | none => left; simp; rfl
    | some v =>
      simp only [Option.isSome_some, jsonMarshal, PutState]
      cases f.putState id _ with
      | some err => left; rfl
      | none => right; rfl

/-- The store after `Deleteagent` is the store before, or the store before
without `id`. -/
theorem Deleteagent_store (f : Faults) (id : GoString) (w : World) :
    (Deleteagent f id w).2.store = w.store ∨
    (Deleteagent f id w).2.store = w.store.del id := by
  unfold Deleteagent agentExists GetState
  cases f.getState id with
  | some err => left; rfl
  | none =>
    cases hg : w.store.get id with
    | none => left; simp; rfl
    | some v =>
      simp only [Option.isSome_some, DelState]
      cases f.delState id with
      | some err => left; rfl
      | none => right; rfl

/-- Claim C15: for every store, every `id` and every key `k` different from
`id`, the value at `k` (or its absence) after `Createagent(id, ...)`,
`Updateagent(id, ...)` or `Deleteagent(id)` is the same as before the call,
whatever the stub does and whether the call succeeds or fails. -/
theorem single_record_frame (f : Faults)
    (id did name address represents agentType roles iam status : GoString) (w : World)
    (k : GoString) (hk : k ≠ id) :
    (Createagent f id did name address represents agentType roles iam w).2.store.get k =
      w.store.get k ∧
    (Updateagent f id did name address represents agentType roles iam status w).2.store.get k =
      w.store.get k ∧
    (Deleteagent f id w).2.store.get k = w.store.get k := by
  refine ⟨?_, ?_, ?_⟩
  · rcases Createagent_store f id did name address represents agentType roles iam w with
      h | h
    · rw [h]
    · rw [h, Store.get_put_of_ne _ _ _ _ hk]
  · rcases Updateagent_store f id did name address represents agentType roles iam status w with
      h | h
    · rw [h]
    · rw [h, Store.get_put_of_ne _ _ _ _ hk]
  · rcases Deleteagent_store f id w with h | h
    · rw [h]
    · rw [h, Store.get_del_of_ne _ _ _ hk]

/-- Witness for `single_record_frame`: updating "a" leaves "b" as it was. -/
theorem single_record_frame_witness :
    (Updateagent Faults.none (goStr "a") [] [] [] [] [] [] [] []
      ⟨(Store.empty.put (goStr "a") (goStr "x")).put (goStr "b") (goStr "y"), []⟩).2.store.get
        (goStr "b") = some (goStr "y") :=
  ((single_record_frame Faults.none (goStr "a") [] [] [] [] [] [] [] []
    ⟨(Store.empty.put (goStr "a") (goStr "x")).put (goStr "b") (goStr "y"), []⟩ (goStr "b")
    (by decide)).2.1).trans (by decide)

/-- The loop of `GetAllagents` leaves the store as it was and calls only
`HasNext` and `Next`. -/
theorem getAllLoop_frame (f : Faults) (results : List (GoString × Bytes)) :
    ∀ (pos : Nat) (agents : List Agent) (w : World),
      (getAllLoop f pos results agents w).2.store = w.store ∧
      ∃ calls, (getAllLoop f pos results agents w).2.trace = w.trace ++ calls ∧
        ∀ c ∈ calls, c = Call.hasNext ∨ c = Call.next := by
  induction results with
  | nil =>
    intro pos agents w
    exact ⟨rfl, [.hasNext], rfl, by simp⟩
  | cons e rest ih =>
    intro pos agents w
    simp only [getAllLoop]
    cases f.next pos with
    | some err => exact ⟨rfl, [.hasNext, .next], by simp [World.log], by simp⟩
    | none =>
      cases jsonUnmarshal e.2 with
      | error err => exact ⟨rfl, [.hasNext, .next], by simp [World.log], by simp⟩
      | ok a =>
        obtain ⟨hs, calls, ht, hc⟩ := ih (pos + 1) (agents ++ [a]) ((w.log .hasNext).log .next)
        refine ⟨by rw [hs]; rfl, [.hasNext, .next] ++ calls, by rw [ht]; simp [World.log], ?_⟩
        intro c hcm
        rcases List.mem_append.mp hcm with h | h
        · simpa using h
        · exact hc c h

/-- Claim C18: for every store and every `id`, `Readagent(id)` and
`GetAllagents` leave the store identical to what it was before the call,
whatever the stub does and whether they succeed or fail; none of the calls
they make on the stub is a `PutState` or a `DelState`. -/
theorem queries_read_only (f : Faults) (id : GoString) (w : World) :
    ((Readagent f id w).2.store = w.store ∧
      ∃ calls, (Readagent f id w).2.trace = w.trace ++ calls ∧
        ∀ c ∈ calls, c.isWrite = false) ∧
    ((GetAllagents f w).2.store = w.store ∧
      ∃ calls, (GetAllagents f w).2.trace = w.trace ++ calls ∧
        ∀ c ∈ calls, c.isWrite = false) := by
  constructor
  · have hw : (Readagent f id w).2 = w.log (.getState id) := by
      unfold Readagent GetState
      cases f.getState id with
      | some err => rfl
      | none =>
        cases w.store.get id with
        | none => rfl
        | some v => simp only; cases jsonUnmarshal v <;> rfl
    rw [hw]
    exact ⟨rfl, [.getState id], rfl, by simp [Call.isWrite]⟩
  · unfold GetAllagents GetStateByRange
    cases f.getStateByRange [] [] with
    | some err => exact ⟨rfl, [.getStateByRange [] []], rfl, by simp [Call.isWrite]⟩
    | none =>
      obtain ⟨hs, calls, ht, hc⟩ :=
        getAllLoop_frame f (w.store.range [] []) 0 [] (w.log (.getStateByRange [] []))
      refine ⟨by show (getAllLoop f 0 _ [] _).2.store = _; rw [hs]; rfl,
        [.getStateByRange [] []] ++ calls ++ [.close], ?_, ?_⟩
      · show (getAllLoop f 0 _ [] _).2.trace ++ [Call.close] = _
        rw [ht]; simp [World.log]
      · intro c hcm
        simp only [List.mem_append, List.mem_singleton] at hcm
        rcases hcm with (h | h) | h
        · rw [h]; rfl
        · rcases hc c h with h | h <;> rw [h] <;> rfl
        · rw [h]; rfl

/-! ## Failures of the stub -/

/-- The loop of `GetAllagents` returns an error as soon as a `Next` fails or
a value does not decode. -/
theorem getAllLoop_error (f : Faults) (results : List (GoString × Bytes)) :
    ∀ (pos : Nat) (agents : List Agent) (w : World),
      ((∃ i, i < results.length ∧ f.next (pos + i) ≠ none) ∨
        (∃ e ∈ results, ∃ err, jsonUnmarshal e.2 = .error err)) →
      ∃ err, (getAllLoop f pos results agents w).1 = .error err := by
  induction results with
  | nil =>
    intro pos agents w h
    rcases h with ⟨i, hi, _⟩ | ⟨e, he, _⟩
    · simp at hi
    · simp at he
  | cons e rest ih =>
    intro pos agents w h
    simp only [getAllLoop]
    cases hn : f.next pos with
    | some err => exact ⟨_, rfl⟩
    | none =>
      cases hj : jsonUnmarshal e.2 with
      | error err => exact ⟨_, rfl⟩
      | ok a =>
        apply ih
        rcases h with ⟨i, hi, hf⟩ | ⟨e', he', err, herr⟩
        · left
          cases i with
          | zero => simp [hn] at hf
          | succ i =>
            refine ⟨i, by simpa using hi, ?_⟩
            have : pos + 1 + i = pos + (i + 1) := by omega
            rw [this]; exact hf
        · right
          rcases List.mem_cons.mp he' with rfl | hmem
          · rw [hj] at herr; cases herr
          · exact ⟨e', hmem, err, herr⟩

/-- Claim C13: for every store in which at least one scanned value fails to
decode, `GetAllagents` returns an error and no record sequence, however many
earlier values decoded; the same holds when the range scan cannot be opened
or a call of `Next` fails. -/
theorem get_all_all_or_nothing (f : Faults) (w : World)
    (hbad : (∃ e ∈ w.store.range [] [], ∃ err, jsonUnmarshal e.2 = .error err) ∨
      (∃ c, f.getStateByRange [] [] = some c) ∨
      (∃ k, k < (w.store.range [] []).length ∧ f.next k ≠ none)) :
    ∃ err, (GetAllagents f w).1 = .error err ∧
      ∀ agents, (GetAllagents f w).1 ≠ .ok agents := by
  suffices h : ∃ err, (GetAllagents f w).1 = .error err by
    obtain ⟨err, he⟩ := h
    exact ⟨err, he, fun agents ha => by rw [he] at ha; cases ha⟩
  unfold GetAllagents GetStateByRange
  cases hs : f.getStateByRange [] [] with
  | some c => exact ⟨_, rfl⟩
  | none =>
    have hloop := getAllLoop_error f (w.store.range [] []) 0 [] (w.log (.getStateByRange [] []))
      (by
        rcases hbad with h | ⟨c, hc⟩ | ⟨k, hk, hf⟩
        · exact Or.inr h
        · rw [hs] at hc; cases hc
        · exact Or.inl ⟨k, hk, by simpa using hf⟩)
    obtain ⟨err, he⟩ := hloop
    exact ⟨err, he⟩

/-- Witness for `get_all_all_or_nothing`: the second of two values is not JSON. -/
theorem get_all_all_or_nothing_witness :
    ∃ err, (GetAllagents Faults.none
      ⟨(Store.empty.put (goStr "a") (goStr "null")).put (goStr "b") (goStr "x"), []⟩).1 =
      .error err :=
  (get_all_all_or_nothing Faults.none
    ⟨(Store.empty.put (goStr "a") (goStr "null")).put (goStr "b") (goStr "x"), []⟩
    (Or.inl ⟨(goStr "b", goStr "x"), by decide, .json .malformed, by decide⟩)).imp
    (fun _ h => h.1)

/-- The loop of `InitLedger` when the first failing write is that of `a`:
the records before `a` are written, the write of `a` is the last call. -/
theorem initLoop_fails (f : Faults) (pre : List Agent) (a : Agent) (post : List Agent)
    (c : GoString) (hpre : ∀ b ∈ pre, f.putState b.ID b.encoding = none)
    (hfail : f.putState a.ID a.encoding = some c) :
    ∀ w : World, initLoop f (pre ++ a :: post) w =
      (.error (.putFailed c),
        { store := pre.foldl (fun s b => s.put b.ID b.encoding) w.store,
          trace := w.trace ++ (pre ++ [a]).map (fun b => Call.putState b.ID b.encoding) }) := by
  induction pre with
  | nil =>
    intro w
    simp only [List.nil_append, initLoop, jsonMarshal, PutState]
    have hf : f.putState a.ID (encodeFields a 0x7B Field.all) = some c := hfail
    rw [hf]
    rfl
  | cons b rest ih =>
    intro w
    have hb : f.putState b.ID (encodeFields b 0x7B Field.all) = none :=
      hpre b (List.mem_cons_self _ _)
    rw [List.cons_append, initLoop]
    simp only [jsonMarshal, PutState, hb]
    rw [ih (fun x hx => hpre x (List.mem_cons_of_mem _ hx))]
    simp [World.log, Agent.encoding]

/-- The loop of `GetAllagents` when the first failure is that of the `Next`
after the results `pre`: the loop stops there. -/
theorem getAllLoop_next_fails (f : Faults) (pre : List (GoString × Bytes))
    (e : GoString × Bytes) (post : List (GoString × Bytes)) (c : GoString)
    (hdec : ∀ x ∈ pre, ∃ a, jsonUnmarshal x.2 = .ok a) :
    ∀ (pos : Nat) (agents : List Agent) (w : World),
      (∀ j, j < pre.length → f.next (pos + j) = none) →
      f.next (pos + pre.length) = some c →
      getAllLoop f pos (pre ++ e :: post) agents w =
        (.error (.stub c),
          { store := w.store, trace := w.trace ++ nextCalls (pre.length + 1) }) := by
  induction pre with
  | nil =>
    intro pos agents w _ hfail
    rw [List.nil_append, getAllLoop]
    have : f.next pos = some c := by simpa using hfail
    rw [this]
    simp [World.log, nextCalls]
  | cons x rest ih =>
    intro pos agents w hok hfail
    obtain ⟨a, ha⟩ := hdec x (List.mem_cons_self _ _)
    have h0 : f.next pos = none := by simpa using hok 0 (by simp)
    rw [List.cons_append, getAllLoop]
    simp only [h0, ha]
    rw [ih (fun y hy => hdec y (List.mem_cons_of_mem _ hy)) (pos + 1) _ _
      (fun j hj => by
        have := hok (j + 1) (by simpa using hj)
        rwa [show pos + 1 + j = pos + (j + 1) by omega])
      (by rw [← hfail]; simp only [List.length_cons]; congr 1; omega)]
    simp [World.log, nextCalls]

/-- The keys of the bootstrap records are pairwise different. -/
theorem initAgents_keys :
    goStr "agent1" ≠ goStr "agent2" ∧ goStr "agent1" ≠ goStr "agent3" ∧
      goStr "agent2" ≠ goStr "agent3" := by
  decide

/-- Claim C14: if the stub's write fails on the k-th bootstrap record (the
records `pre` before it, k - 1 of them, having been written) then `InitLedger`
returns the write error, the records of `pre` are in the store with their
encodings, the keys of the k-th and later records hold what they held before
the call, and the failed write is the last call on the stub. -/
theorem init_ledger_stops_at_failure (f : Faults) (w : World) (pre : List Agent) (a : Agent)
    (post : List Agent) (c : GoString) (hsplit : initAgents = pre ++ a :: post)
    (hpre : ∀ b ∈ pre, f.putState b.ID b.encoding = none)
    (hfail : f.putState a.ID a.encoding = some c) :
    (InitLedger f w).1 = .error (.putFailed c) ∧
    (∀ b ∈ pre, jsonMarshal b = .ok b.encoding ∧
      (InitLedger f w).2.store.get b.ID = some b.encoding) ∧
    (∀ b ∈ a :: post, (InitLedger f w).2.store.get b.ID = w.store.get b.ID) ∧
    (InitLedger f w).2.trace =
      w.trace ++ (pre ++ [a]).map (fun b => Call.putState b.ID b.encoding) := by
  unfold InitLedger
  rw [hsplit, initLoop_fails f pre a post c hpre hfail w]
  refine ⟨rfl, ?_, ?_, rfl⟩
  · obtain ⟨k12, k13, k23⟩ := initAgents_keys
    rcases pre with _ | ⟨p1, _ | ⟨p2, _ | ⟨p3, pre⟩⟩⟩
    · intro b hb; simp at hb
    · simp only [initAgents, List.cons_append, List.nil_append, List.cons.injEq] at hsplit
      obtain ⟨rfl, -⟩ := hsplit
      intro b hb
      simp only [List.mem_singleton] at hb
      subst hb
      exact ⟨rfl, Store.get_put_self _ _ _⟩
    · simp only [initAgents, List.cons_append, List.nil_append, List.cons.injEq] at hsplit
      obtain ⟨rfl, rfl, -⟩ := hsplit
      intro b hb
      simp only [List.mem_cons, List.mem_singleton, List.not_mem_nil, or_false] at hb
      rcases hb with rfl | rfl
      · refine ⟨rfl, ?_⟩
        simp only [List.foldl]
        rw [Store.get_put_of_ne _ _ _ _ k12, Store.get_put_self]
      · exact ⟨rfl, Store.get_put_self _ _ _⟩
    · have := congrArg List.length hsplit
      simp [initAgents] at this
  · obtain ⟨k12, k13, k23⟩ := initAgents_keys
    rcases pre with _ | ⟨p1, _ | ⟨p2, _ | ⟨p3, pre⟩⟩⟩
    · intro b _; rfl
    · simp only [initAgents, List.cons_append, List.nil_append, List.cons.injEq] at hsplit
      obtain ⟨rfl, rfl, rfl⟩ := hsplit
      intro b hb
      simp only [List.mem_cons, List.mem_singleton, List.not_mem_nil, or_false] at hb
      simp only [List.foldl]
      rcases hb with rfl | rfl
      · exact Store.get_put_of_ne _ _ _ _ (Ne.symm k12)
      · exact Store.get_put_of_ne _ _ _ _ (Ne.symm k13)
    · simp only [initAgents, List.cons_append, List.nil_append, List.cons.injEq] at hsplit
      obtain ⟨rfl, rfl, rfl, rfl⟩ := hsplit
      intro b hb
      simp only [List.mem_singleton] at hb
      subst hb
      simp only [List.foldl]
      rw [Store.get_put_of_ne _ _ _ _ (Ne.symm k23), Store.get_put_of_ne _ _ _ _ (Ne.symm k13)]
    · have := congrArg List.length hsplit
      simp [initAgents] at this

/-- Witness for `init_ledger_stops_at_failure`: the write of agent2 fails. -/
theorem init_ledger_stops_at_failure_witness :
    (InitLedger ⟨fun _ => none, fun k _ => if k = goStr "agent2" then some (goStr "boom") else none,
        fun _ => none, fun _ _ => none, fun _ => none⟩ ⟨Store.empty, []⟩).1 =
      .error (.putFailed (goStr "boom")) ∧
    (InitLedger ⟨fun _ => none, fun k _ => if k = goStr "agent2" then some (goStr "boom") else none,
        fun _ => none, fun _ _ => none, fun _ => none⟩ ⟨Store.empty, []⟩).2.store.get
        (goStr "agent3") = none :=
  have h := init_ledger_stops_at_failure
    ⟨fun _ => none, fun k _ => if k = goStr "agent2" then some (goStr "boom") else none,
      fun _ => none, fun _ _ => none, fun _ => none⟩ ⟨Store.empty, []⟩
    [⟨goStr "agent1", goStr "agent1@myssi.org", goStr "Number One", [], [], [], [], [], []⟩]
    ⟨goStr "agent2", goStr "agent2@myssi.org", goStr "Number Two", [], [], [], [], [], []⟩
    [⟨goStr "agent3", goStr "agent3@myssi.org", goStr "Number Three", [], [], [], [], [], []⟩]
    (goStr "boom") rfl (by decide) (by decide)
  ⟨h.1, (h.2.2.1 _ (List.mem_cons_of_mem _ (List.mem_singleton.mpr rfl))).trans (by decide)⟩

/-! ## Seeding twice -/

theorem lookup_none_of_lt (l : List (GoString × Bytes)) (k : GoString)
    (h : ∀ e ∈ l, keyLt k e.1 = true) : l.lookup k = none := by
  induction l with
  | nil => rfl
  | cons e rest ih =>
    obtain ⟨a, v⟩ := e
    have hka : k ≠ a := by
      intro e
      have := h (a, v) (List.mem_cons_self _ _)
      rw [e] at this
      simp [keyLt_irrefl] at this
    have hbeq : (k == a) = false := by simpa using hka
    rw [List.lookup_cons, hbeq]
    exact ih (fun e he => h e (List.mem_cons_of_mem _ he))

theorem mem_of_lookup (l : List (GoString × Bytes)) (k : GoString) (v : Bytes)
    (h : l.lookup k = some v) : (k, v) ∈ l := by
  induction l with
  | nil => simp at h
  | cons e rest ih =>
    obtain ⟨a, u⟩ := e
    rw [List.lookup_cons] at h
    by_cases hka : k = a
    · subst hka
      simp at h
      subst h
      exact List.mem_cons_self _ _
    · have hbeq : (k == a) = false := by simpa using hka
      rw [hbeq] at h
      exact List.mem_cons_of_mem _ (ih h)

/-- Ascending lists with the same lookups are equal. -/
theorem ascending_ext (l1 : List (GoString × Bytes)) :
    ∀ l2 : List (GoString × Bytes), Ascending l1 → Ascending l2 →
      (∀ k, l1.lookup k = l2.lookup k) → l1 = l2 := by
  induction l1 with
  | nil =>
    intro l2 _ _ h
    cases l2 with
    | nil => rfl
    | cons e t =>
      obtain ⟨k2, v2⟩ := e
      have := h k2
      simp [List.lookup_cons] at this
  | cons e1 t1 ih =>
    intro l2 h1 h2 h
    obtain ⟨k1, v1⟩ := e1
    cases l2 with
    | nil =>
      have := h k1
      simp [List.lookup_cons] at this
    | cons e2 t2 =>
      obtain ⟨k2, v2⟩ := e2
      unfold Ascending at h1 h2
      rw [List.pairwise_cons] at h1 h2
      have hk : k1 = k2 := by
        by_contra hne
        have hb1 : (k1 == k2) = false := by simpa using hne
        have hb2 : (k2 == k1) = false := by simpa using (Ne.symm hne)
        have a1 := h k1
        have a2 := h k2
        simp only [List.lookup_cons, beq_self_eq_true, hb1, hb2] at a1 a2
        have m1 := h2.1 _ (mem_of_lookup t2 k1 v1 a1.symm)
        have m2 := h1.1 _ (mem_of_lookup t1 k2 v2 a2)
        have := keyLt_trans m1 m2
        simp [keyLt_irrefl] at this
      subst hk
      have hv : v1 = v2 := by
        have := h k1
        simpa [List.lookup_cons] using this
      subst hv
      have ht : t1 = t2 := by
        apply ih t2 h1.2 h2.2
        intro k
        by_cases hkk : k = k1
        · subst hkk
          rw [lookup_none_of_lt t1 k (fun e he => h1.1 e he),
            lookup_none_of_lt t2 k (fun e he => h2.1 e he)]
        · have hb : (k == k1) = false := by simpa using hkk
          have := h k
          simpa only [List.lookup_cons, hb] using this
      rw [ht]

/-- Stores with the same value at every key are equal. -/
theorem Store.ext_get {s t : Store} (h : ∀ k, s.get k = t.get k) : s = t :=
  Store.ext_entries (ascending_ext s.entries t.entries s.sorted t.sorted h)

/-- Writing again a value that was written, after writes to other keys,
changes nothing. -/
theorem Store.put_again (s : Store) (k : GoString) (v : Bytes)
    (h : s.get k = some v) : s.put k v = s := by
  apply Store.ext_get
  intro k'
  by_cases hk : k' = k
  · subst hk; rw [Store.get_put_self, h]
  · exact Store.get_put_of_ne _ _ _ _ hk

/-- The values of the seeded store: the encodings of the bootstrap records
at their keys, the former values elsewhere. -/
theorem seeded_get (s : Store) (k : GoString) :
    (seeded s).get k =
      match initAgents.find? (fun a => a.ID == k) with
      | some a => some a.encoding
      | none => s.get k := by
  obtain ⟨k12, k13, k23⟩ := initAgents_keys
  simp only [seeded, initAgents, List.foldl]
  by_cases h3 : k = goStr "agent3"
  · subst h3
    rw [Store.get_put_self]
    rfl
  rw [Store.get_put_of_ne _ _ _ _ h3]
  by_cases h2 : k = goStr "agent2"
  · subst h2
    rw [Store.get_put_self]
    rfl
  rw [Store.get_put_of_ne _ _ _ _ h2]
  by_cases h1 : k = goStr "agent1"
  · subst h1
    rw [Store.get_put_self]
    rfl
  rw [Store.get_put_of_ne _ _ _ _ h1]
  have e1 : (goStr "agent1" == k) = false := by simpa using Ne.symm h1
  have e2 : (goStr "agent2" == k) = false := by simpa using Ne.symm h2
  have e3 : (goStr "agent3" == k) = false := by simpa using Ne.symm h3
  simp only [List.find?, e1, e2, e3]

/-- Seeding a seeded store changes nothing. -/
theorem seeded_seeded (s : Store) : seeded (seeded s) = seeded s := by
  apply Store.ext_get
  intro k
  rw [seeded_get (seeded s) k, seeded_get s k]
  cases initAgents.find? (fun a => a.ID == k) <;> rfl

/-- Claim C17: `InitLedger` performs no existence check: for every initial
store, a successful `InitLedger` yields the store that equals the initial one
except that the keys agent1, agent2 and agent3 hold the encodings of the
three bootstrap records, whatever they held before; and a second successful
`InitLedger` leaves the store of the first. -/
theorem init_ledger_overwrites (f1 f2 : Faults) (w : World)
    (h1 : (InitLedger f1 w).1 = .ok ()) :
    (∀ a ∈ initAgents, jsonMarshal a = .ok a.encoding ∧
      (InitLedger f1 w).2.store.get a.ID = some a.encoding) ∧
    (∀ k, (∀ a ∈ initAgents, k ≠ a.ID) → (InitLedger f1 w).2.store.get k = w.store.get k) ∧
    ((InitLedger f2 (InitLedger f1 w).2).1 = .ok () →
      (InitLedger f2 (InitLedger f1 w).2).2.store = (InitLedger f1 w).2.store) := by
  have hs1 : (InitLedger f1 w).2.store = seeded w.store := initLoop_ok f1 initAgents w h1
  refine ⟨?_, ?_, ?_⟩
  · intro a ha
    refine ⟨rfl, ?_⟩
    rw [hs1, seeded_get]
    simp only [initAgents, List.mem_cons, List.mem_singleton, List.not_mem_nil, or_false] at ha
    rcases ha with rfl | rfl | rfl <;> rfl
  · intro k hk
    rw [hs1, seeded_get]
    have e1 : (goStr "agent1" == k) = false := by
      simpa using Ne.symm (hk ⟨goStr "agent1", goStr "agent1@myssi.org", goStr "Number One",
        [], [], [], [], [], []⟩ (by simp [initAgents]))
    have e2 : (goStr "agent2" == k) = false := by
      simpa using Ne.symm (hk ⟨goStr "agent2", goStr "agent2@myssi.org", goStr "Number Two",
        [], [], [], [], [], []⟩ (by simp [initAgents]))
    have e3 : (goStr "agent3" == k) = false := by
      simpa using Ne.symm (hk ⟨goStr "agent3", goStr "agent3@myssi.org", goStr "Number Three",
        [], [], [], [], [], []⟩ (by simp [initAgents]))
    simp only [initAgents, List.find?, e1, e2, e3]
  · intro h2
    have hs2 : (InitLedger f2 (InitLedger f1 w).2).2.store = seeded (InitLedger f1 w).2.store :=
      initLoop_ok f2 initAgents _ h2
    rw [hs2, hs1, seeded_seeded]

/-- Witness for `init_ledger_overwrites`: agent2 held other bytes before. -/
theorem init_ledger_overwrites_witness :
    (InitLedger Faults.none ⟨Store.empty.put (goStr "agent2") (goStr "x"), []⟩).1 = .ok () ∧
    (InitLedger Faults.none
      (InitLedger Faults.none ⟨Store.empty.put (goStr "agent2") (goStr "x"), []⟩).2).2.store =
      (InitLedger Faults.none ⟨Store.empty.put (goStr "agent2") (goStr "x"), []⟩).2.store :=
  ⟨by decide, (init_ledger_overwrites Faults.none Faults.none
    ⟨Store.empty.put (goStr "agent2") (goStr "x"), []⟩ (by decide)).2.2 (by decide)⟩

/-! ## Errors and their messages -/

/-- Claim C12: no failure of the stub is swallowed or retried. For each
operation and each primitive it calls, if that call is the first to fail
then the operation returns an error built from the failure, and the failed
call is the last `GetState`, `PutState`, `DelState`, `GetStateByRange` or
`Next` in the trace (after a failed `Next` only the iterator is closed); when
the probe's `GetState` fails, `Createagent`, `Updateagent` and `Deleteagent`
leave the store as it was and issue no `PutState` or `DelState`. -/
theorem failures_surface (f : Faults)
    (id did name address represents agentType roles iam status : GoString) (w : World) :
    (∀ c, f.getState id = some c →
      Readagent f id w = (.error (.readFailed c), w.log (.getState id)) ∧
      Createagent f id did name address represents agentType roles iam w =
        (.error (.readFailed c), w.log (.getState id)) ∧
      Updateagent f id did name address represents agentType roles iam status w =
        (.error (.readFailed c), w.log (.getState id)) ∧
      Deleteagent f id w = (.error (.readFailed c), w.log (.getState id))) ∧
    (∀ c, f.getState id = none → w.store.get id = none →
      f.putState id (newAgent id did name address represents agentType roles iam).encoding =
        some c →
      Createagent f id did name address represents agentType roles iam w =
        (.error (.stub c),
          (w.log (.getState id)).log (.putState id
            (newAgent id did name address represents agentType roles iam).encoding))) ∧
    (∀ c v, f.getState id = none → w.store.get id = some v →
      f.putState id (Agent.mk id did name address represents agentType roles iam status).encoding =
        some c →
      Updateagent f id did name address represents agentType roles iam status w =
        (.error (.stub c),
          (w.log (.getState id)).log (.putState id
            (Agent.mk id did name address represents agentType roles iam status).encoding))) ∧
    (∀ c v, f.getState id = none → w.store.get id = some v → f.delState id = some c →
      Deleteagent f id w =
        (.error (.stub c), (w.log (.getState id)).log (.delState id))) ∧
    (∀ pre a post c, initAgents = pre ++ a :: post →
      (∀ b ∈ pre, f.putState b.ID b.encoding = none) → f.putState a.ID a.encoding = some c →
      (InitLedger f w).1 = .error (.putFailed c) ∧
      (InitLedger f w).2.trace =
        w.trace ++ (pre ++ [a]).map (fun b => Call.putState b.ID b.encoding)) ∧
    (∀ c, f.getStateByRange [] [] = some c →
      GetAllagents f w = (.error (.stub c), w.log (.getStateByRange [] []))) ∧
    (∀ pre e post c, f.getStateByRange [] [] = none → w.store.range [] [] = pre ++ e :: post →
      (∀ x ∈ pre, ∃ a, jsonUnmarshal x.2 = .ok a) → (∀ j, j < pre.length → f.next j = none) →
      f.next pre.length = some c →
      GetAllagents f w =
        (.error (.stub c),
          { store := w.store,
            trace := w.trace ++ [Call.getStateByRange [] []] ++ nextCalls (pre.length + 1) ++
              [Call.close] })) := by
  refine ⟨?_, ?_, ?_, ?_, ?_, ?_, ?_⟩
  · intro c hc
    refine ⟨?_, ?_, ?_, ?_⟩
    · simp [Readagent, GetState, hc]
    · simp [Createagent, agentExists, GetState, hc]
    · simp [Updateagent, agentExists, GetState, hc]
    · simp [Deleteagent, agentExists, GetState, hc]
  · intro c hg habs hp
    have hp' : f.putState id (encodeFields
        (newAgent id did name address represents agentType roles iam) 0x7B Field.all) = some c := hp
    simp only [newAgent] at hp'
    simp [Createagent, agentExists_eq f id w hg, habs, jsonMarshal, PutState, hp',
      Agent.encoding, newAgent]
  · intro c v hg hpres hp
    have hp' : f.putState id (encodeFields
        ⟨id, did, name, address, represents, agentType, roles, iam, status⟩ 0x7B Field.all) =
        some c := hp
    simp [Updateagent, agentExists_eq f id w hg, hpres, jsonMarshal, PutState, hp',
      Agent.encoding]
  · intro c v hg hpres hd
    simp [Deleteagent, agentExists_eq f id w hg, hpres, DelState, hd]
  · intro pre a post c hsplit hpre hfail
    unfold InitLedger
    rw [hsplit, initLoop_fails f pre a post c hpre hfail w]
    exact ⟨rfl, rfl⟩
  · intro c hc
    simp [GetAllagents, GetStateByRange, hc]
  · intro pre e post c hscan hsplit hdec hok hfail
    simp only [GetAllagents, GetStateByRange, hscan, hsplit]
    rw [getAllLoop_next_fails f pre e post c hdec 0 [] _ (by simpa using hok)
      (by simpa using hfail)]
    simp [World.log]

/-- Witness for `failures_surface`: every `GetState` fails. -/
theorem failures_surface_witness :
    Createagent ⟨fun _ => some (goStr "boom"), fun _ _ => none, fun _ => none, fun _ _ => none,
        fun _ => none⟩ (goStr "a") [] [] [] [] [] [] [] ⟨Store.empty, []⟩ =
      (.error (.readFailed (goStr "boom")), ⟨Store.empty, [.getState (goStr "a")]⟩) :=
  ((failures_surface ⟨fun _ => some (goStr "boom"), fun _ _ => none, fun _ => none,
    fun _ _ => none, fun _ => none⟩ (goStr "a") [] [] [] [] [] [] [] []
    ⟨Store.empty, []⟩).1 (goStr "boom") rfl).2.1

/-- Claim C11, as stated, fails: when `GetState` fails with the error "boom",
`Readagent("agent1")` returns the error "failed to read from world state:
boom", and when `PutState` fails with "boom", `Createagent("agent1", ...)`
returns the error "boom"; neither message contains "agent1". -/
theorem error_without_id :
    (Readagent ⟨fun _ => some (goStr "boom"), fun _ _ => none, fun _ => none, fun _ _ => none,
        fun _ => none⟩ (goStr "agent1") ⟨Store.empty, []⟩).1 =
      .error (.readFailed (goStr "boom")) ∧
    (Createagent ⟨fun _ => none, fun _ _ => some (goStr "boom"), fun _ => none, fun _ _ => none,
        fun _ => none⟩ (goStr "agent1") [] [] [] [] [] [] [] ⟨Store.empty, []⟩).1 =
      .error (.stub (goStr "boom")) ∧
    ∀ jsonText : JsonError → GoString,
      (Error.readFailed (goStr "boom")).message jsonText =
        goStr "failed to read from world state: boom" ∧
      ¬ (goStr "agent1" <:+: (Error.readFailed (goStr "boom")).message jsonText) ∧
      ¬ (goStr "agent1" <:+: (Error.stub (goStr "boom")).message jsonText) := by
  refine ⟨by decide, by decide, ?_⟩
  intro jsonText
  refine ⟨?_, ?_, ?_⟩
  · show goStr "failed to read from world state: " ++ goStr "boom" =
      goStr "failed to read from world state: boom"
    decide
  · show ¬ (goStr "agent1" <:+: goStr "failed to read from world state: " ++ goStr "boom")
    decide
  · show ¬ (goStr "agent1" <:+: goStr "boom")
    decide

/-- Claim C11, amended: the errors for an absent id (`Readagent`,
`Updateagent`, `Deleteagent`) and for a duplicate id (`Createagent`) carry the
id in their message. The other errors of these operations do not add it: a
failed read gives "failed to read from world state: " followed by the stub's
error, a failed write gives the stub's error unchanged, and undecodable
bytes give the decoder's error unchanged. -/
theorem error_messages (jsonText : JsonError → GoString) (f : Faults)
    (id did name address represents agentType roles iam status : GoString) (w : World) :
    (∀ e, (Createagent f id did name address represents agentType roles iam w).1 = .error e →
      ((∃ v, w.store.get id = some v) ∧ e = .alreadyExists id) ∨
      (∃ c, f.getState id = some c ∧ e = .readFailed c) ∨
      (∃ c v, f.putState id v = some c ∧ e = .stub c)) ∧
    (∀ e, (Readagent f id w).1 = .error e →
      (w.store.get id = none ∧ e = .doesNotExist id) ∨
      (∃ c, f.getState id = some c ∧ e = .readFailed c) ∨
      (∃ v je, w.store.get id = some v ∧ jsonUnmarshal v = .error e ∧ e = .json je)) ∧
    (∀ e, (Updateagent f id did name address represents agentType roles iam status w).1 =
        .error e →
      (w.store.get id = none ∧ e = .doesNotExist id) ∨
      (∃ c, f.getState id = some c ∧ e = .readFailed c) ∨
      (∃ c v, f.putState id v = some c ∧ e = .stub c)) ∧
    (∀ e, (Deleteagent f id w).1 = .error e →
      (w.store.get id = none ∧ e = .doesNotExist id) ∨
      (∃ c, f.getState id = some c ∧ e = .readFailed c) ∨
      (∃ c, f.delState id = some c ∧ e = .stub c)) ∧
    (id <:+: (Error.alreadyExists id).message jsonText) ∧
    (id <:+: (Error.doesNotExist id).message jsonText) ∧
    (∀ c, (Error.readFailed c).message jsonText =
      goStr "failed to read from world state: " ++ c) ∧
    (∀ c, (Error.stub c).message jsonText = c) ∧
    (∀ je, (Error.json je).message jsonText = jsonText je) := by
  refine ⟨?_, ?_, ?_, ?_, ⟨_, _, rfl⟩, ⟨_, _, rfl⟩, fun _ => rfl, fun _ => rfl, fun _ => rfl⟩
  · intro e he
    cases hg : f.getState id with
    | some c =>
      simp [Createagent, agentExists, GetState, hg] at he
      exact Or.inr (Or.inl ⟨c, rfl, he.symm⟩)
    | none =>
      cases hs : w.store.get id with
      | some v =>
        simp [Createagent, agentExists_eq f id w hg, hs] at he
        exact Or.inl ⟨⟨v, rfl⟩, he.symm⟩
      | none =>
        simp only [Createagent, agentExists_eq f id w hg, hs, jsonMarshal, PutState,
          Option.isSome_none] at he
        cases hp : f.putState id (encodeFields
            ⟨id, did, name, address, represents, agentType, roles, iam, goStr "active"⟩
            0x7B Field.all) with
        | some c =>
          simp [hp] at he
          exact Or.inr (Or.inr ⟨c, _, hp, he.symm⟩)
        | none => simp [hp] at he
  · intro e he
    cases hg : f.getState id with
    | some c =>
      simp [Readagent, GetState, hg] at he
      exact Or.inr (Or.inl ⟨c, rfl, he.symm⟩)
    | none =>
      cases hs : w.store.get id with
      | none =>
        simp [Readagent, GetState, hg, hs] at he
        exact Or.inl ⟨rfl, he.symm⟩
      | some v =>
        rw [Readagent_present f id w v hs hg] at he
        obtain ⟨je, hje⟩ := jsonUnmarshal_error v e he
        exact Or.inr (Or.inr ⟨v, je, rfl, he, hje⟩)
  · intro e he
    cases hg : f.getState id with
    | some c =>
      simp [Updateagent, agentExists, GetState, hg] at he
      exact Or.inr (Or.inl ⟨c, rfl, he.symm⟩)
    | none =>
      cases hs : w.store.get id with
      | none =>
        simp [Updateagent, agentExists_eq f id w hg, hs] at he
        exact Or.inl ⟨rfl, he.symm⟩
      | some v =>
        simp only [Updateagent, agentExists_eq f id w hg, hs, jsonMarshal, PutState,
          Option.isSome_some] at he
        cases hp : f.putState id (encodeFields
            ⟨id, did, name, address, represents, agentType, roles, iam, status⟩
            0x7B Field.all) with
        | some c =>
          simp [hp] at he
          exact Or.inr (Or.inr ⟨c, _, hp, he.symm⟩)
        | none => simp [hp] at he
  · intro e he
    cases hg : f.getState id with
    | some c =>
      simp [Deleteagent, agentExists, GetState, hg] at he
      exact Or.inr (Or.inl ⟨c, rfl, he.symm⟩)
    | none =>
      cases hs : w.store.get id with
      | none =>
        simp [Deleteagent, agentExists_eq f id w hg, hs] at he
        exact Or.inl ⟨rfl, he.symm⟩
      | some v =>
        simp only [Deleteagent, agentExists_eq f id w hg, hs, DelState,
          Option.isSome_some] at he
        cases hd : f.delState id with
        | some c =>
          simp [hd] at he
          exact Or.inr (Or.inr ⟨c, rfl, he.symm⟩)
        | none => simp [hd] at he

/-- Witness for `error_messages`: deleting the absent key "agent9". -/
theorem error_messages_witness :
    (Deleteagent Faults.none (goStr "agent9") ⟨Store.empty, []⟩).1 =
      .error (.doesNotExist (goStr "agent9")) ∧
    goStr "agent9" <:+: (Error.doesNotExist (goStr "agent9")).message (fun _ => []) :=
  ⟨by decide,
   (error_messages (fun _ => []) Faults.none (goStr "agent9") [] [] [] [] [] [] [] []
    ⟨Store.empty, []⟩).2.2.2.2.2.1⟩

/-! ## Keys and IDs -/

theorem KeyIdInvariant.empty : KeyIdInvariant Store.empty := by
  intro k v h
  simp [Store.get, Store.empty] at h

theorem KeyIdInvariant.put {s : Store} (h : KeyIdInvariant s) (a : Agent)
    (hid : validUTF8 a.ID = true) : KeyIdInvariant (s.put a.ID a.encoding) := by
  intro k v hk
  by_cases e : k = a.ID
  · subst e
    rw [Store.get_put_self] at hk
    cases hk
    exact ⟨a.coerce, jsonUnmarshal_encodeFields a, coerceUTF8_valid a.ID hid⟩
  · rw [Store.get_put_of_ne _ _ _ _ e] at hk
    exact h k v hk

theorem KeyIdInvariant.del {s : Store} (h : KeyIdInvariant s) (id : GoString) :
    KeyIdInvariant (s.del id) := by
  intro k v hk
  by_cases e : k = id
  · subst e
    rw [Store.get_del_self] at hk
    cases hk
  · rw [Store.get_del_of_ne _ _ _ e] at hk
    exact h k v hk

theorem initLoop_invariant (f : Faults) (agents : List Agent)
    (hv : ∀ a ∈ agents, validUTF8 a.ID = true) :
    ∀ w : World, KeyIdInvariant w.store → KeyIdInvariant (initLoop f agents w).2.store := by
  induction agents with
  | nil => intro w h; exact h
  | cons a rest ih =>
    intro w h
    simp only [initLoop, jsonMarshal, PutState]
    cases f.putState a.ID (encodeFields a 0x7B Field.all) with
    | some err => exact h
    | none =>
      exact ih (fun b hb => hv b (List.mem_cons_of_mem _ hb)) _
        (h.put a (hv a (List.mem_cons_self _ _)))

theorem Op.run_invariant (o : Op) (hv : o.idValid = true) (w : World)
    (h : KeyIdInvariant w.store) : KeyIdInvariant (o.run w).store := by
  cases o with
  | init f =>
    exact initLoop_invariant f initAgents (by decide) w h
  | create f id did name address represents agentType roles iam =>
    rcases Createagent_store f id did name address represents agentType roles iam w with e | e
    · simp only [Op.run]; rw [e]; exact h
    · simp only [Op.run]; rw [e]
      exact h.put (newAgent id did name address represents agentType roles iam) hv
  | update f id did name address represents agentType roles iam status =>
    rcases Updateagent_store f id did name address represents agentType roles iam status w with
      e | e
    · simp only [Op.run]; rw [e]; exact h
    · simp only [Op.run]; rw [e]
      exact h.put (Agent.mk id did name address represents agentType roles iam status) hv
  | delete f id =>
    rcases Deleteagent_store f id w with e | e
    · simp only [Op.run]; rw [e]; exact h
    · simp only [Op.run]; rw [e]; exact h.del id

theorem runAll_invariant (ops : List Op) (hv : ∀ o ∈ ops, o.idValid = true) :
    ∀ w : World, KeyIdInvariant w.store → KeyIdInvariant (runAll ops w).store := by
  induction ops with
  | nil => intro w h; exact h
  | cons o rest ih =>
    intro w h
    exact ih (fun x hx => hv x (List.mem_cons_of_mem _ hx)) _
      (o.run_invariant (hv o (List.mem_cons_self _ _)) w h)

/-- In an ascending list the lookup of the key of an entry is its value. -/
theorem lookup_of_mem (l : List (GoString × Bytes)) (h : Ascending l) (k : GoString)
    (v : Bytes) (hm : (k, v) ∈ l) : l.lookup k = some v := by
  induction l with
  | nil => simp at hm
  | cons e rest ih =>
    obtain ⟨a, u⟩ := e
    unfold Ascending at h
    rw [List.pairwise_cons] at h
    rcases List.mem_cons.mp hm with heq | hmem
    · cases heq
      simp [List.lookup_cons]
    · have hlt := h.1 _ hmem
      have hka : k ≠ a := by
        intro e
        rw [e] at hlt
        simp [keyLt_irrefl] at hlt
      have hbeq : (k == a) = false := by simpa using hka
      rw [List.lookup_cons, hbeq]
      exact ih h.2 hmem

/-- The keys of an ascending list are pairwise different. -/
theorem keys_nodup (l : List (GoString × Bytes)) (h : Ascending l) :
    (l.map Prod.fst).Nodup := by
  induction l with
  | nil => simp
  | cons e rest ih =>
    unfold Ascending at h
    rw [List.pairwise_cons] at h
    rw [List.map_cons, List.nodup_cons]
    refine ⟨?_, ih h.2⟩
    intro hm
    obtain ⟨x, hx, hxe⟩ := List.mem_map.mp hm
    have := h.1 x hx
    rw [hxe] at this
    simp [keyLt_irrefl] at this

/-- Values that all decode to agents whose ID is the key have a list of
decodings whose IDs are the keys. -/
theorem decodings_with_ids (l : List (GoString × Bytes))
    (h : ∀ e ∈ l, ∃ a, jsonUnmarshal e.2 = .ok a ∧ a.ID = e.1) :
    ∃ decoded : List Agent, l.map (fun e => jsonUnmarshal e.2) = decoded.map Except.ok ∧
      decoded.map Agent.ID = l.map Prod.fst := by
  induction l with
  | nil => exact ⟨[], rfl, rfl⟩
  | cons e rest ih =>
    obtain ⟨a, ha, hid⟩ := h e (List.mem_cons_self _ _)
    obtain ⟨ds, hds, hids⟩ := ih (fun e' he' => h e' (List.mem_cons_of_mem _ he'))
    exact ⟨a :: ds, by simp [ha, hds], by simp [hid, hids]⟩

/-- Claim C16, as stated, fails: after `Createagent("\xff", ...)` on the
empty store the key 0xFF holds bytes that decode to an agent whose ID is the
three bytes of U+FFFD, so the invariant does not hold of this reachable
store, and `Readagent("\xff")` succeeds with an ID different from the id. -/
theorem key_id_mismatch :
    ¬ KeyIdInvariant
      (runAll [Op.create Faults.none [0xFF] [] [] [] [] [] [] []] ⟨Store.empty, []⟩).store ∧
    (Readagent Faults.none [0xFF]
      (runAll [Op.create Faults.none [0xFF] [] [] [] [] [] [] []] ⟨Store.empty, []⟩)).1 =
      .ok ⟨[0xEF, 0xBF, 0xBD], [], [], [], [], [], [], [], goStr "active"⟩ := by
  refine ⟨?_, by decide⟩
  intro h
  obtain ⟨a, ha, hid⟩ := h [0xFF]
    (newAgent [0xFF] [] [] [] [] [] [] []).encoding (by decide)
  have hdec : jsonUnmarshal (newAgent [0xFF] [] [] [] [] [] [] []).encoding =
      .ok ⟨[0xEF, 0xBF, 0xBD], [], [], [], [], [], [], [], goStr "active"⟩ := by decide
  rw [hdec] at ha
  cases ha
  revert hid
  decide

/-- Claim C16, amended: in every store reached from the empty store by a
finite sequence of `InitLedger`, `Createagent`, `Updateagent` and `Deleteagent`
calls (successful or failed) whose id arguments are valid UTF-8, every
present key holds bytes that decode to an agent whose ID is the key; hence
`Readagent(id)`, when it succeeds, returns a record with that ID, and
`GetAllagents` (its scan not failing) succeeds and returns records with
pairwise different IDs. -/
theorem key_id_invariant (ops : List Op) (w : World) (hempty : w.store = Store.empty)
    (hvalid : ∀ o ∈ ops, o.idValid = true) :
    KeyIdInvariant (runAll ops w).store ∧
    (∀ (f : Faults) (id : GoString) (a : Agent),
      (Readagent f id (runAll ops w)).1 = .ok a → a.ID = id) ∧
    (∀ f : Faults, f.getStateByRange [] [] = none → (∀ n, f.next n = none) →
      ∃ agents, (GetAllagents f (runAll ops w)).1 = .ok agents ∧
        (agents.map Agent.ID).Nodup) := by
  have hinv : KeyIdInvariant (runAll ops w).store :=
    runAll_invariant ops hvalid w (by rw [hempty]; exact KeyIdInvariant.empty)
  refine ⟨hinv, ?_, ?_⟩
  · intro f id a hr
    cases hg : f.getState id with
    | some c => simp [Readagent, GetState, hg] at hr
    | none =>
      cases hs : (runAll ops w).store.get id with
      | none => simp [Readagent, GetState, hg, hs] at hr
      | some v =>
        rw [Readagent_present f id _ v hs hg] at hr
        obtain ⟨a', ha', hid⟩ := hinv id v hs
        rw [ha'] at hr
        cases hr
        exact hid
  · intro f hscan hnext
    have hr := Store.range_all (runAll ops w).store
    obtain ⟨decoded, hd, hids⟩ := decodings_with_ids (runAll ops w).store.entries
      (fun e he => hinv e.1 e.2
        (lookup_of_mem _ (runAll ops w).store.sorted e.1 e.2 he))
    refine ⟨decoded, GetAllagents_ok f _ hscan hnext decoded (by rw [hr]; exact hd), ?_⟩
    rw [hids]
    exact keys_nodup _ (runAll ops w).store.sorted

/-- Witness for `key_id_invariant`: seeding, creating "agent7", deleting
"agent2". -/
theorem key_id_invariant_witness :
    ∃ agents, (GetAllagents Faults.none
        (runAll [Op.init Faults.none,
          Op.create Faults.none (goStr "agent7") [0xFF] [] [] [] [] [] [],
          Op.delete Faults.none (goStr "agent2")] ⟨Store.empty, []⟩)).1 = .ok agents ∧
      (agents.map Agent.ID).Nodup :=
  (key_id_invariant [Op.init Faults.none,
      Op.create Faults.none (goStr "agent7") [0xFF] [] [] [] [] [] [],
      Op.delete Faults.none (goStr "agent2")] ⟨Store.empty, []⟩ rfl (by decide)).2.2
    Faults.none rfl (fun _ => rfl)

end AgentLedger
